import Mathlib

/-!
Verification of the `py-why/graphs` repository: a shallow embedding of the
`MixedEdgeGraph` data structure (`graphs/classes/mixedgraph.py`), the
m-separation algorithm (`graphs/algorithms/causal/m_separation.py`) and the
bidirected-to-unobserved-confounder conversion
(`graphs/algorithms/causal/convert.py`), together with proofs about them.

Node identifiers are modelled by an arbitrary type `ν` with decidable
equality (Python node objects are arbitrary hashables).  Python sets that
the algorithms iterate over are modelled as lists (an iteration order);
networkx graphs are modelled by their node list (dict insertion order) and
reported edge list.  Fallible Python code is modelled with `Except PyErr`.
-/

/-- Python exceptions raised by the code under study. -/
inductive PyErr : Type
  | runtimeError (msg : String)
  | valueError (msg : String)
  | typeError (msg : String)
  | networkXError (msg : String)
deriving DecidableEq, Repr

/-- The concrete class of a networkx graph object: `nx.Graph` (undirected)
or `nx.DiGraph` (directed). -/
inductive GKind : Type
  | undirected
  | directed
deriving DecidableEq, Repr

/-- A networkx single-edge-type graph: its node list (dict key order) and the
edge list it reports (each stored edge once, in stored orientation).
For a `DiGraph` the pairs are directed edges; for a `Graph` each undirected
edge appears once in the orientation it was inserted with. -/
structure NxGraph (ν : Type) : Type where
  kind : GKind
  nodes : List ν
  edges : List (ν × ν)
deriving DecidableEq, Repr

instance (ν : Type) : Inhabited (NxGraph ν) := ⟨⟨GKind.undirected, [], []⟩⟩

variable {ν : Type} [DecidableEq ν]

set_option linter.unusedSectionVars false

/-- `nx` `add_node`: a no-op if the node is present, else appended. -/
def NxGraph.addNode (g : NxGraph ν) (n : ν) : NxGraph ν :=
  if n ∈ g.nodes then g else { g with nodes := g.nodes ++ [n] }

/-- Directed `add_edge` (`nx.DiGraph`): missing endpoints are added, then the
directed edge is stored unless already present. -/
def NxGraph.addEdgeDi (g : NxGraph ν) (u v : ν) : NxGraph ν :=
  let g1 := (g.addNode u).addNode v
  if (u, v) ∈ g1.edges then g1 else { g1 with edges := g1.edges ++ [(u, v)] }

/-- Undirected `add_edge` (`nx.Graph`): missing endpoints are added, then the
edge is stored (in the given orientation) unless either orientation is
already present. -/
def NxGraph.addEdgeUn (g : NxGraph ν) (u v : ν) : NxGraph ν :=
  let g1 := (g.addNode u).addNode v
  if (u, v) ∈ g1.edges ∨ (v, u) ∈ g1.edges then g1
  else { g1 with edges := g1.edges ++ [(u, v)] }

/-- `add_edge` dispatched on the concrete class of the layer. -/
def NxGraph.addEdge (g : NxGraph ν) (u v : ν) : NxGraph ν :=
  match g.kind with
  | GKind.undirected => g.addEdgeUn u v
  | GKind.directed => g.addEdgeDi u v

/-- `nx` `remove_node` on a present node: the node and all incident edges
(in either direction) are dropped.  (Absence raises `NetworkXError`; callers
below model that check explicitly.) -/
def NxGraph.removeNode (g : NxGraph ν) (n : ν) : NxGraph ν :=
  { g with
    nodes := g.nodes.filter (fun v => decide (v ≠ n)),
    edges := g.edges.filter (fun e => decide (e.1 ≠ n) && decide (e.2 ≠ n)) }

/-- `nx` `clear`: removes every node and edge. -/
def NxGraph.clear (g : NxGraph ν) : NxGraph ν :=
  { g with nodes := [], edges := [] }

/-- `DiGraph.out_degree[n]`: the number of stored edges with source `n`. -/
def NxGraph.outDeg (g : NxGraph ν) (n : ν) : Nat :=
  (g.edges.filter (fun e => decide (e.1 = n))).length

/-- `DiGraph.predecessors(n)`: sources of the stored edges into `n` (the
predecessor adjacency keys; distinct because stored edges are distinct). -/
def NxGraph.predecessors (g : NxGraph ν) (n : ν) : List ν :=
  (g.edges.filter (fun e => decide (e.2 = n))).map Prod.fst

/-- An argument passed where a networkx graph is expected: either an actual
`nx.Graph`/`nx.DiGraph` instance, or some other Python object.  Used to model
the dynamically-typed `isinstance` check in `MixedEdgeGraph.__init__`. -/
inductive PyGraphObj (ν : Type) : Type
  | nx (g : NxGraph ν)
  | notGraph
deriving DecidableEq

/-- The `MixedEdgeGraph` state: the internal single-edge-type graphs
(`self._graphs`) and the matching edge-type names (`self._edge_types`).
Graph-level attributes (`self.graph`) carry no structural information used by
the claims and are not modelled. -/
structure MixedEdgeGraph (ν : Type) : Type where
  graphs : List (NxGraph ν)
  edge_types : List String
deriving DecidableEq, Repr

/-- `MixedEdgeGraph.__init__` (mixedgraph.py lines 45-60): fails with
`RuntimeError` when the number of graphs and the number of edge-type names
differ, or when some supplied object is not an `nx.Graph`/`nx.DiGraph`
instance; otherwise the object is constructed.  `Except` models that an error
leaves no partially constructed object. -/
def MixedEdgeGraph.init (gs : List (PyGraphObj ν)) (ets : List String) :
    Except PyErr (MixedEdgeGraph ν) :=
  if gs.length ≠ ets.length then
    .error (.runtimeError
      "The number of graph objects passed in must match the number of edge types.")
  else if gs.any (fun g => decide (g = PyGraphObj.notGraph)) then
    .error (.runtimeError
      "All graph object inputs must be one of Networkx Graph or DiGraph.")
  else
    .ok { graphs := gs.filterMap (fun g => match g with
            | PyGraphObj.nx g' => some g'
            | PyGraphObj.notGraph => none),
          edge_types := ets }

/-- `self.nodes` (mixedgraph.py lines 108-111): the `NodeView` of the first
internal graph.  (With no internal graphs Python raises `IndexError`; that
state is never reached by the theorems below, which all concern graphs with
at least one registered layer.) -/
def MixedEdgeGraph.nodesView (G : MixedEdgeGraph ν) : List ν :=
  match G.graphs with
  | [] => []
  | g :: _ => g.nodes

/-- The internal graph registered under `et` (`_get_sub_graph` /
`get_graphs(edge_type=et)`): the graph at the index of the first occurrence
of `et` in `self._edge_types`.  Meaningful when `et ∈ edge_types` and the two
lists have equal length. -/
def MixedEdgeGraph.layerOf (G : MixedEdgeGraph ν) (et : String) : NxGraph ν :=
  G.graphs.getD (G.edge_types.indexOf et) default

/-- `get_graphs(edge_type=et)` for a single named type (convert.py line 31,
m_separation.py lines 73 and 78): `ValueError` when `et` is not registered. -/
def MixedEdgeGraph.getGraphsOne (G : MixedEdgeGraph ν) (et : String) :
    Except PyErr (NxGraph ν) :=
  if et ∈ G.edge_types then .ok (G.layerOf et)
  else .error (.valueError "Querying the edge_type of a MixedEdgeGraph must be all or a registered edge type.")

/-- Replace the layer registered under `et` (when present) by `f` of it. -/
def MixedEdgeGraph.updateLayer (G : MixedEdgeGraph ν) (et : String)
    (f : NxGraph ν → NxGraph ν) : MixedEdgeGraph ν :=
  let i := G.edge_types.indexOf et
  { G with graphs := G.graphs.set i (f (G.graphs.getD i default)) }

/-- `add_node` (mixedgraph.py lines 113-115): applied to every layer. -/
def MixedEdgeGraph.add_node (G : MixedEdgeGraph ν) (n : ν) : MixedEdgeGraph ν :=
  { G with graphs := G.graphs.map (fun g => g.addNode n) }

/-- `add_nodes_from` (mixedgraph.py lines 117-119).  The source calls each
layer's singular `add_node` with the whole collection, so the collection
object itself becomes one node of every layer (when it is hashable; an
unhashable collection raises `TypeError` before any layer is mutated, leaving
every layer unchanged).  The hashable-collection case is modelled, the
collection object standing for a value of `ν`. -/
def MixedEdgeGraph.add_nodes_from (G : MixedEdgeGraph ν) (nodes_for_adding : ν) :
    MixedEdgeGraph ν :=
  { G with graphs := G.graphs.map (fun g => g.addNode nodes_for_adding) }

/-- The layer loop of `remove_node`: each layer removes `n` in turn; a layer
missing `n` raises `NetworkXError`, which aborts the loop with the earlier
layers already mutated. -/
def removeNodeLoop (n : ν) : List (NxGraph ν) → List (NxGraph ν) × Option PyErr
  | [] => ([], none)
  | g :: gs =>
    if n ∈ g.nodes then
      let r := removeNodeLoop n gs
      (g.removeNode n :: r.1, r.2)
    else
      (g :: gs, some (.networkXError "The node is not in the graph."))

/-- `remove_node` (mixedgraph.py lines 121-123): the resulting state together
with the raised error, if any. -/
def MixedEdgeGraph.remove_node (G : MixedEdgeGraph ν) (n : ν) :
    MixedEdgeGraph ν × Option PyErr :=
  let r := removeNodeLoop n G.graphs
  ({ G with graphs := r.1 }, r.2)

/-- `remove_nodes_from` (mixedgraph.py lines 125-127): every layer silently
removes each listed node that it has (`nx` `remove_nodes_from` ignores
missing nodes). -/
def MixedEdgeGraph.remove_nodes_from (G : MixedEdgeGraph ν) (ns : List ν) :
    MixedEdgeGraph ν :=
  { G with graphs := G.graphs.map (fun g =>
      ns.foldl (fun h m => if m ∈ h.nodes then h.removeNode m else h) g) }

/-- `add_edge` (mixedgraph.py lines 327-361): `_get_sub_graph` raises
`ValueError` for an unregistered edge type; otherwise only the targeted layer
receives the edge (and thereby its endpoints). -/
def MixedEdgeGraph.add_edge (G : MixedEdgeGraph ν) (u v : ν) (et : String) :
    Except PyErr (MixedEdgeGraph ν) :=
  if et ∈ G.edge_types then .ok (G.updateLayer et (fun g => g.addEdge u v))
  else .error (.valueError "Edge type not part of the existing edge types in graph.")

/-- `add_edges_from` (mixedgraph.py lines 363-401): as `add_edge`, for a
bunch of edges. -/
def MixedEdgeGraph.add_edges_from (G : MixedEdgeGraph ν) (ebunch : List (ν × ν))
    (et : String) : Except PyErr (MixedEdgeGraph ν) :=
  if et ∈ G.edge_types then
    .ok (G.updateLayer et (fun g => ebunch.foldl (fun h e => h.addEdge e.1 e.2) g))
  else .error (.valueError "Edge type not part of the existing edge types in graph.")

/-- `remove_edge` (mixedgraph.py lines 403-423): dispatched to the targeted
layer; `NetworkXError` when the edge is absent there. -/
def MixedEdgeGraph.remove_edge (G : MixedEdgeGraph ν) (u v : ν) (et : String) :
    Except PyErr (MixedEdgeGraph ν) :=
  if et ∈ G.edge_types then
    let g := G.layerOf et
    let present : Bool :=
      match g.kind with
      | GKind.undirected => decide ((u, v) ∈ g.edges ∨ (v, u) ∈ g.edges)
      | GKind.directed => decide ((u, v) ∈ g.edges)
    if present then
      .ok (G.updateLayer et (fun h =>
        { h with edges := h.edges.filter (fun e =>
            decide (¬ ((e.1 = u ∧ e.2 = v) ∨
              (h.kind = GKind.undirected ∧ e.1 = v ∧ e.2 = u)))) }))
    else .error (.networkXError "The edge is not in the graph.")
  else .error (.valueError "Edge type not part of the existing edge types in graph.")

/-- `clear` (mixedgraph.py lines 194-196): every layer is cleared. -/
def MixedEdgeGraph.clear (G : MixedEdgeGraph ν) : MixedEdgeGraph ν :=
  { G with graphs := G.graphs.map NxGraph.clear }

/-- The shared-node-set invariant the specification asserts: every pair of
internal layers has the same set of nodes.  (Stated as mutual containment
quantified over all ordered pairs of layers, which is the same property.) -/
def sharedNodes (G : MixedEdgeGraph ν) : Prop :=
  ∀ g ∈ G.graphs, ∀ h ∈ G.graphs, ∀ v ∈ g.nodes, v ∈ h.nodes

instance (G : MixedEdgeGraph ν) : Decidable (sharedNodes G) := by
  unfold sharedNodes; infer_instance

/-- Embeds `MixedEdgeGraph.copy` (mixedgraph.py lines 530-540).  With the
default `as_view=False`, the first executed statement is
`G = self.__class__()`, which calls `MixedEdgeGraph.__init__` with neither of
its two required positional parameters (`graphs`, `edge_types`); Python
raises `TypeError` at that call, before any later line (the next lines would
in any case read `self._node` and `self._adj`, attributes `MixedEdgeGraph`
never defines).  The faithful embedding of the method is therefore the raised
error, with no mutation of the receiver. -/
def MixedEdgeGraph.copy (_G : MixedEdgeGraph ν) : Except PyErr (MixedEdgeGraph ν) :=
  .error (.typeError
    "MixedEdgeGraph.__init__ missing 2 required positional arguments: graphs and edge_types")

/-- The per-edge loop body of `bidirected_to_unobserved_confounder`
(convert.py lines 32-40), acting on the copy.  Each iteration first calls
`G_copy.add_node(f"U{idx}", ...)` (the synthetic confounder node) and then
`G_copy.add_edge(f"U{idx}", latent_edge[0])` — which omits the mandatory
`edge_type` parameter of `MixedEdgeGraph.add_edge`, so Python raises
`TypeError` there.  With no bidirected edges the loop body never runs. -/
def convertLoop (Gc : MixedEdgeGraph String) (edges : List (String × String))
    (idx : Nat) : Except PyErr (MixedEdgeGraph String) :=
  match edges with
  | [] => .ok Gc
  | _e :: _rest =>
    let _Gc1 := Gc.add_node ("U" ++ toString idx)
    .error (.typeError
      "MixedEdgeGraph.add_edge missing 1 required positional argument: edge_type")

/-- `bidirected_to_unobserved_confounder` (convert.py lines 27-42), modelled
with explicit state passing: the second component of the result is the state
of the *input* graph object after the call.  The function only ever reads its
input (`G.copy()`, `G.get_graphs(...)`); every mutation targets the copy, so
the input component is returned unchanged on every path.  In the source as it
stands, `G.copy()` raises `TypeError` (see `MixedEdgeGraph.copy`), so the
`.ok` branch of the first match is dead code kept for fidelity to the
remaining source lines. -/
def bidirected_to_unobserved_confounder (G : MixedEdgeGraph String)
    (bidirected_edge_name : String) :
    Except PyErr (MixedEdgeGraph String) × MixedEdgeGraph String :=
  match G.copy with
  | .error e => (.error e, G)
  | .ok Gc =>
    match G.getGraphsOne bidirected_edge_name with
    | .error e => (.error e, G)
    | .ok sub => (convertLoop Gc sub.edges 0, G)

/-- Build the working directed graph `G_copy` (m_separation.py lines 69-73):
a fresh `nx.DiGraph`, `add_nodes_from(G.nodes)` (copied node attributes are
not modelled), then `add_edges_from` of the reported edges of the layer
registered under the directed edge-type name. -/
def buildDirected (G : MixedEdgeGraph ν) (di : String) : NxGraph ν :=
  let base : NxGraph ν := { kind := GKind.directed, nodes := [], edges := [] }
  let withNodes := G.nodesView.foldl NxGraph.addNode base
  (G.layerOf di).edges.foldl (fun g e => g.addEdgeDi e.1 e.2) withNodes

/-- Build the working bidirected graph `G_bidirected` (m_separation.py lines
76-78): a fresh `nx.Graph` over `G.nodes` plus the reported edges of the
layer registered under the bidirected edge-type name. -/
def buildBidirected (G : MixedEdgeGraph ν) (bi : String) : NxGraph ν :=
  let base : NxGraph ν := { kind := GKind.undirected, nodes := [], edges := [] }
  let withNodes := G.nodesView.foldl NxGraph.addNode base
  (G.layerOf bi).edges.foldl (fun g e => g.addEdgeUn e.1 e.2) withNodes

/-- The FIFO leaf-pruning loop (m_separation.py lines 83-91).  The deque is
the third argument.  A popped leaf in `x ∪ y ∪ z` is skipped; otherwise its
in-neighbours of out-degree exactly 1 are appended to the deque, and the leaf
is removed from both working graphs.  `remove_node` on a graph missing the
node raises `NetworkXError` (as does `predecessors`), modelled by the error
branches. -/
def pruneLoop (union_xyz : List ν) :
    NxGraph ν → NxGraph ν → List ν → Except PyErr (NxGraph ν × NxGraph ν)
  | D, B, [] => .ok (D, B)
  | D, B, leaf :: rest =>
    if leaf ∈ union_xyz then
      pruneLoop union_xyz D B rest
    else if leaf ∈ D.nodes then
      let newQ := rest ++ (D.predecessors leaf).filter (fun p => D.outDeg p == 1)
      if leaf ∈ B.nodes then
        pruneLoop union_xyz (D.removeNode leaf) (B.removeNode leaf) newQ
      else .error (.networkXError "The node is not in the graph.")
    else .error (.networkXError "The node is not in the graph.")
  termination_by D _ Q => (D.nodes.length, Q.length)
  decreasing_by
  · exact Prod.Lex.right _ (by simp)
  · apply Prod.Lex.left
    have : ∃ v ∈ D.nodes, ¬ (decide (v ≠ leaf) = true) := ⟨leaf, by simp_all⟩
    simpa [NxGraph.removeNode, List.length_filter_lt_length_iff_exists] using this

/-- A `networkx.utils.UnionFind` state, modelled by the partition it
maintains: the list of its equivalence classes (possibly with repeated
elements inside a class; a class stands for its set of members). -/
def singletons (L : List ν) : List (List ν) := L.map (fun v => [v])

/-- `UnionFind.union(*objects)` at the level of the maintained partition:
with no objects it is a no-op (networkx catches the empty-iterator case and
returns); otherwise all classes meeting `objs` are merged into one class,
and objects not yet known to the structure join that class (the structure
creates a singleton for an unseen element on first access). -/
def unionClasses (P : List (List ν)) (objs : List ν) : List (List ν) :=
  if objs.isEmpty then P
  else
    let hit := P.filter (fun c => decide (∃ o ∈ objs, o ∈ c))
    let rest := P.filter (fun c => decide (¬ ∃ o ∈ objs, o ∈ c))
    (hit.flatten ++ objs.filter (fun o => decide (¬ ∃ c ∈ P, o ∈ c))) :: rest

/-- Two elements lie in a common class of the partition. -/
def samePiece (P : List (List ν)) (a b : ν) : Prop :=
  ∃ c ∈ P, a ∈ c ∧ b ∈ c

instance (P : List (List ν)) (a b : ν) : Decidable (samePiece P a b) := by
  unfold samePiece; infer_instance

/-- `nx.connected_components(G_final)` (external library call): the partition
of the node set of an undirected graph into its connected components,
computed by starting from singleton classes and merging the two endpoint
classes of every edge. -/
def connectedComponents (g : NxGraph ν) : List (List ν) :=
  g.edges.foldl (fun P e => unionClasses P [e.1, e.2]) (singletons g.nodes)

/-- The core of `m_separated` after its precondition checks (m_separation.py
lines 67-114): build the working graphs, prune to the ancestral closure,
delete the out-edges of `z`, form the undirected graph `G_final` (the source
line `G_final.add_nodes_from(... G_final.nodes ...)` iterates over
`G_final`'s own, still empty, node view, so `G_final` holds exactly the
endpoints of the edges added to it), run union-find over its connected
components, merge all of `x` and all of `y`, and compare the representatives
of an element of `x` and an element of `y` (the comparison is skipped, and
`True` returned, when `x` or `y` is empty, by the `if x and y and ...`
short-circuit; the `print` on line 103 is ignored). -/
def m_separated_core (G : MixedEdgeGraph ν) (x y z : List ν) (bi di : String) :
    Except PyErr Bool :=
  let union_xyz := x ++ y ++ z
  let G_copy := buildDirected G di
  let G_bid := buildBidirected G bi
  let leaves := G_copy.nodes.filter (fun n => G_copy.outDeg n == 0)
  match pruneLoop union_xyz G_copy G_bid leaves with
  | .error e => .error e
  | .ok (D, B) =>
    let D2 : NxGraph ν := { D with edges := D.edges.filter (fun e => decide (e.1 ∉ z)) }
    let base : NxGraph ν := { kind := GKind.undirected, nodes := [], edges := [] }
    let G_final := (D2.edges ++ B.edges).foldl (fun g e => g.addEdgeUn e.1 e.2) base
    let ds0 := singletons G_final.nodes
    let ds1 := (connectedComponents G_final).foldl unionClasses ds0
    let ds2 := unionClasses ds1 x
    let ds3 := unionClasses ds2 y
    match x, y with
    | x0 :: _, y0 :: _ => if samePiece ds3 x0 y0 then .ok false else .ok true
    | _, _ => .ok true

/-- An argument passed to `m_separated` where the graph is expected: either a
`MixedEdgeGraph` instance or some other object (e.g. a bare `nx.DiGraph`),
modelling the `isinstance` check on m_separation.py line 53. -/
inductive MSepArg (ν : Type) : Type
  | mixedGraph (G : MixedEdgeGraph ν)
  | notMixed
deriving DecidableEq

/-- The message of the `RuntimeError` raised when a required edge type is not
registered (m_separation.py lines 61-66): it names the available edge types
of the graph and the expected directed and bidirected layer names. -/
def msepEdgeTypesMsg (available : List String) (bi di : String) : String :=
  "m-separation only works on graphs with directed and bidirected edges. " ++
    "Your graph passed in has the following edge types: " ++ toString available ++
    ", whereas the function is expecting directed edges named " ++ di ++
    " and bidirected edges named " ++ bi ++ "."

/-- The message of the `RuntimeError` raised for a non-`MixedEdgeGraph`
argument (m_separation.py lines 54-57). -/
def msepNotMixedMsg : String :=
  "m-separation should only be run on a MixedEdgeGraph. If you have a " ++
    "directed graph, use the d_separated function instead."

/-- `m_separated(G, x, y, z, bidirected_edge_name, directed_edge_name)`
(m_separation.py lines 18-114): the two precondition checks of lines 53-66,
then the core algorithm. -/
def m_separated (arg : MSepArg ν) (x y z : List ν) (bi di : String) :
    Except PyErr Bool :=
  match arg with
  | MSepArg.notMixed => .error (.runtimeError msepNotMixedMsg)
  | MSepArg.mixedGraph G =>
    if bi ∈ G.edge_types ∧ di ∈ G.edge_types then m_separated_core G x y z bi di
    else .error (.runtimeError (msepEdgeTypesMsg G.edge_types bi di))

deriving instance DecidableEq for Except

theorem pruneLoop_nil (u : List ν) (D B : NxGraph ν) :
    pruneLoop u D B [] = .ok (D, B) := by
  rw [pruneLoop.eq_def]

theorem pruneLoop_cons_skip (u : List ν) (D B : NxGraph ν) {leaf : ν}
    (rest : List ν) (h : leaf ∈ u) :
    pruneLoop u D B (leaf :: rest) = pruneLoop u D B rest := by
  rw [pruneLoop.eq_def]; simp [h]

theorem pruneLoop_cons_remove (u : List ν) (D B : NxGraph ν) {leaf : ν}
    (rest : List ν) (h : leaf ∉ u) (hD : leaf ∈ D.nodes) (hB : leaf ∈ B.nodes) :
    pruneLoop u D B (leaf :: rest) =
      pruneLoop u (D.removeNode leaf) (B.removeNode leaf)
        (rest ++ (D.predecessors leaf).filter (fun p => D.outDeg p == 1)) := by
  rw [pruneLoop.eq_def]; simp [h, hD, hB]

theorem pruneLoop_cons_errD (u : List ν) (D B : NxGraph ν) {leaf : ν}
    (rest : List ν) (h : leaf ∉ u) (hD : leaf ∉ D.nodes) :
    pruneLoop u D B (leaf :: rest) =
      .error (.networkXError "The node is not in the graph.") := by
  rw [pruneLoop.eq_def]; simp [h, hD]

theorem pruneLoop_cons_errB (u : List ν) (D B : NxGraph ν) {leaf : ν}
    (rest : List ν) (h : leaf ∉ u) (hD : leaf ∈ D.nodes) (hB : leaf ∉ B.nodes) :
    pruneLoop u D B (leaf :: rest) =
      .error (.networkXError "The node is not in the graph.") := by
  rw [pruneLoop.eq_def]; simp [h, hD, hB]

/-- A fuel-indexed evaluator for `pruneLoop`, used only to evaluate the
algorithm on concrete inputs by kernel reduction (`pruneLoop` itself is
defined by well-founded recursion).  Exhausted fuel falls back to
`pruneLoop`, so the two agree at every fuel. -/
def pruneLoopF (u : List ν) : Nat → NxGraph ν → NxGraph ν → List ν →
    Except PyErr (NxGraph ν × NxGraph ν)
  | 0, D, B, Q => pruneLoop u D B Q
  | _ + 1, D, B, [] => .ok (D, B)
  | fuel + 1, D, B, leaf :: rest =>
    if leaf ∈ u then
      pruneLoopF u fuel D B rest
    else if leaf ∈ D.nodes then
      let newQ := rest ++ (D.predecessors leaf).filter (fun p => D.outDeg p == 1)
      if leaf ∈ B.nodes then
        pruneLoopF u fuel (D.removeNode leaf) (B.removeNode leaf) newQ
      else .error (.networkXError "The node is not in the graph.")
    else .error (.networkXError "The node is not in the graph.")

theorem pruneLoopF_eq (u : List ν) (fuel : Nat) :
    ∀ (D B : NxGraph ν) (Q : List ν), pruneLoopF u fuel D B Q = pruneLoop u D B Q := by
  induction fuel with
  | zero => intro D B Q; rfl
  | succ n ih =>
    intro D B Q
    match Q with
    | [] => rw [pruneLoop_nil]; rfl
    | leaf :: rest =>
      by_cases h : leaf ∈ u
      · rw [show pruneLoopF u (n + 1) D B (leaf :: rest) = pruneLoopF u n D B rest by
          simp [pruneLoopF, h], ih, pruneLoop_cons_skip u D B rest h]
      · by_cases hD : leaf ∈ D.nodes
        · by_cases hB : leaf ∈ B.nodes
          · rw [show pruneLoopF u (n + 1) D B (leaf :: rest) =
                pruneLoopF u n (D.removeNode leaf) (B.removeNode leaf)
                  (rest ++ (D.predecessors leaf).filter (fun p => D.outDeg p == 1)) by
              simp [pruneLoopF, h, hD, hB], ih,
              pruneLoop_cons_remove u D B rest h hD hB]
          · rw [pruneLoop_cons_errB u D B rest h hD hB]; simp [pruneLoopF, h, hD, hB]
        · rw [pruneLoop_cons_errD u D B rest h hD]; simp [pruneLoopF, h, hD]

/-- `m_separated_core` with the pruning loop run on fuel: equal to
`m_separated_core` (see `m_separated_coreF_eq`) and evaluable by kernel
reduction on concrete inputs. -/
def m_separated_coreF (G : MixedEdgeGraph ν) (x y z : List ν) (bi di : String) :
    Except PyErr Bool :=
  let union_xyz := x ++ y ++ z
  let G_copy := buildDirected G di
  let G_bid := buildBidirected G bi
  let leaves := G_copy.nodes.filter (fun n => G_copy.outDeg n == 0)
  let fuel := (G_copy.nodes.length + 1) * (G_copy.nodes.length + 1) + leaves.length
  match pruneLoopF union_xyz fuel G_copy G_bid leaves with
  | .error e => .error e
  | .ok (D, B) =>
    let D2 : NxGraph ν := { D with edges := D.edges.filter (fun e => decide (e.1 ∉ z)) }
    let base : NxGraph ν := { kind := GKind.undirected, nodes := [], edges := [] }
    let G_final := (D2.edges ++ B.edges).foldl (fun g e => g.addEdgeUn e.1 e.2) base
    let ds0 := singletons G_final.nodes
    let ds1 := (connectedComponents G_final).foldl unionClasses ds0
    let ds2 := unionClasses ds1 x
    let ds3 := unionClasses ds2 y
    match x, y with
    | x0 :: _, y0 :: _ => if samePiece ds3 x0 y0 then .ok false else .ok true
    | _, _ => .ok true

theorem m_separated_coreF_eq (G : MixedEdgeGraph ν) (x y z : List ν) (bi di : String) :
    m_separated_coreF G x y z bi di = m_separated_core G x y z bi di := by
  unfold m_separated_coreF m_separated_core
  simp only [pruneLoopF_eq]

/-- `m_separated` through the fueled core. -/
def m_separatedF (arg : MSepArg ν) (x y z : List ν) (bi di : String) :
    Except PyErr Bool :=
  match arg with
  | MSepArg.notMixed => .error (.runtimeError msepNotMixedMsg)
  | MSepArg.mixedGraph G =>
    if bi ∈ G.edge_types ∧ di ∈ G.edge_types then m_separated_coreF G x y z bi di
    else .error (.runtimeError (msepEdgeTypesMsg G.edge_types bi di))

theorem m_separatedF_eq (arg : MSepArg ν) (x y z : List ν) (bi di : String) :
    m_separated arg x y z bi di = m_separatedF arg x y z bi di := by
  match arg with
  | MSepArg.notMixed => rfl
  | MSepArg.mixedGraph G =>
    unfold m_separated m_separatedF
    simp only [m_separated_coreF_eq]

/-- Node membership after `nx` `add_node`. -/
theorem mem_addNode (g : NxGraph ν) (n v : ν) :
    v ∈ (g.addNode n).nodes ↔ v ∈ g.nodes ∨ v = n := by
  unfold NxGraph.addNode
  by_cases h : n ∈ g.nodes
  · rw [if_pos h]
    constructor
    · exact Or.inl
    · rintro (hv | rfl)
      · exact hv
      · exact h
  · rw [if_neg h]; simp

/-- Node membership after `nx` `remove_node`. -/
theorem mem_removeNode (g : NxGraph ν) (n v : ν) :
    v ∈ (g.removeNode n).nodes ↔ v ∈ g.nodes ∧ v ≠ n := by
  simp [NxGraph.removeNode, List.mem_filter]

/-- One directed step along a reported edge list. -/
def dirStep (E : List (ν × ν)) (u v : ν) : Prop := (u, v) ∈ E

/-- The ancestral subgraph of `U` (specification wording): the nodes of the
graph that are in `U` or are ancestors of a member of `U` under the directed
layer's edges. -/
def inAncestralSet (E : List (ν × ν)) (nodes U : List ν) (v : ν) : Prop :=
  v ∈ nodes ∧ (v ∈ U ∨ ∃ u ∈ U, Relation.TransGen (dirStep E) v u)

/-- Adjacency in the moral graph `F` of the specification: both endpoints lie
in the ancestral subgraph, and they are joined by a remaining directed-layer
edge (its source not in `z`; direction dropped) or by a bidirected-layer
edge. -/
def moralAdj (dirE biE : List (ν × ν)) (nodes U z : List ν) (a b : ν) : Prop :=
  inAncestralSet dirE nodes U a ∧ inAncestralSet dirE nodes U b ∧
    (((a, b) ∈ dirE ∧ a ∉ z) ∨ ((b, a) ∈ dirE ∧ b ∉ z) ∨
      (a, b) ∈ biE ∨ (b, a) ∈ biE)

/-- The specification's separation statement: no node of `x` lies in the same
connected component of the moral graph `F` as any node of `y` (both nodes in
particular lying in the ancestral subgraph over which `F` is built). -/
def mSepSpec (G : MixedEdgeGraph ν) (x y z : List ν) (bi di : String) : Prop :=
  ¬ ∃ a ∈ x, ∃ b ∈ y,
      inAncestralSet (G.layerOf di).edges G.nodesView (x ++ y ++ z) a ∧
      inAncestralSet (G.layerOf di).edges G.nodesView (x ++ y ++ z) b ∧
      Relation.ReflTransGen
        (moralAdj (G.layerOf di).edges (G.layerOf bi).edges G.nodesView (x ++ y ++ z) z)
        a b

omit [DecidableEq ν] in
/-- Reachability through a directed edge list stays inside any list of nodes
closed under the edges. -/
theorem transGen_closed (E : List (ν × ν)) (S : List ν)
    (hS : ∀ e ∈ E, e.1 ∈ S → e.2 ∈ S) {a w : ν} (ha : a ∈ S)
    (h : Relation.TransGen (dirStep E) a w) : w ∈ S := by
  induction h with
  | single hstep => exact hS _ hstep ha
  | tail _ hstep ih => exact hS _ hstep ih

/-- The canonical three-node fixture of the specification: directed edges
Z→X and X→Y, bidirected edge X↔Y, node set X, Y, Z. -/
def fixtureADMG : MixedEdgeGraph String :=
  ⟨[⟨GKind.directed, ["X", "Y", "Z"], [("Z", "X"), ("X", "Y")]⟩,
    ⟨GKind.undirected, ["X", "Y", "Z"], [("X", "Y")]⟩],
   ["directed", "bidirected"]⟩

/-- A mixed-edge graph with two empty layers named directed and bidirected. -/
def fixtureTwoEmpty : MixedEdgeGraph String :=
  ⟨[⟨GKind.directed, [], []⟩, ⟨GKind.undirected, [], []⟩],
   ["directed", "bidirected"]⟩

/-- `fixtureTwoEmpty` after `add_edge a b directed`: only the directed layer
gained the endpoints. -/
def fixtureTwoEmptyE : MixedEdgeGraph String :=
  ⟨[⟨GKind.directed, ["a", "b"], [("a", "b")]⟩, ⟨GKind.undirected, [], []⟩],
   ["directed", "bidirected"]⟩

/-- A mixed-edge graph with inconsistent layers: its node view (the first,
bidirected, layer) is empty while its directed layer holds an edge a→b. -/
def fixtureIncons : MixedEdgeGraph String :=
  ⟨[⟨GKind.undirected, [], []⟩, ⟨GKind.directed, ["a", "b"], [("a", "b")]⟩],
   ["bidirected", "directed"]⟩

/-- A fixture whose directed layer has the 2-cycle c→d→c disjoint from the
query nodes x1, y1, with bidirected edges x1↔c and c↔y1. -/
def fixtureCyc : MixedEdgeGraph String :=
  ⟨[⟨GKind.directed, ["x1", "y1", "c", "d"], [("c", "d"), ("d", "c")]⟩,
    ⟨GKind.undirected, ["x1", "y1", "c", "d"], [("x1", "c"), ("c", "y1")]⟩],
   ["directed", "bidirected"]⟩

/-- C4: on the three-node fixture with directed edges Z→X, X→Y and bidirected
edge X↔Y, `m_separated(G, ..Z.., ..Y.., {})` and
`m_separated(G, ..Z.., ..Y.., ..X..)` both return `False`. -/
theorem claim_C4_fixture :
    m_separated (MSepArg.mixedGraph fixtureADMG) ["Z"] ["Y"] []
        "bidirected" "directed" = .ok false ∧
    m_separated (MSepArg.mixedGraph fixtureADMG) ["Z"] ["Y"] ["X"]
        "bidirected" "directed" = .ok false := by
  constructor <;> (rw [m_separatedF_eq]; decide)

/-- C5 (failing input): on the canonical fixture, whose bidirected layer has
one edge, `bidirected_to_unobserved_confounder` does not return a converted
copy: it raises `TypeError` inside `G.copy()` (the constructor is called with
no arguments), and the input graph is left as it was. -/
theorem claim_C5_convert_raises :
    bidirected_to_unobserved_confounder fixtureADMG "bidirected" =
      (.error (.typeError
        "MixedEdgeGraph.__init__ missing 2 required positional arguments: graphs and edge_types"),
       fixtureADMG) := rfl

/-- C6: `bidirected_to_unobserved_confounder` never mutates its input graph:
the state of the input object after the call is the input itself, for every
graph and bidirected layer name (every mutation in the source targets the
copy; in the source as it stands the call in fact raises inside `G.copy()`
before any mutation at all). -/
theorem claim_C6_no_input_mutation (G : MixedEdgeGraph String) (bi : String) :
    (bidirected_to_unobserved_confounder G bi).2 = G := rfl

omit [DecidableEq ν] in
/-- C7 (code bug): `MixedEdgeGraph.copy` never returns a copy: for every
graph it raises `TypeError`, because `self.__class__()` supplies neither of
the two required constructor arguments (and the method body goes on to read
the undefined attributes). -/
theorem claim_C7_copy_raises (G : MixedEdgeGraph ν) :
    G.copy = .error (.typeError
      "MixedEdgeGraph.__init__ missing 2 required positional arguments: graphs and edge_types") :=
  rfl

/-- C8: `m_separated` raises a descriptive `RuntimeError` before any
computation when the argument is not a `MixedEdgeGraph` or when a required
layer name is unregistered (the message naming the expected and the
available edge types), and performs the core computation (no precondition
error) when both layers are registered. -/
theorem claim_C8_precondition_errors (x y z : List ν) (bi di : String) :
    (m_separated (MSepArg.notMixed : MSepArg ν) x y z bi di
        = .error (.runtimeError msepNotMixedMsg)) ∧
    (∀ H : MixedEdgeGraph ν, (bi ∉ H.edge_types ∨ di ∉ H.edge_types) →
      m_separated (MSepArg.mixedGraph H) x y z bi di
        = .error (.runtimeError (msepEdgeTypesMsg H.edge_types bi di))) ∧
    (∀ H : MixedEdgeGraph ν, bi ∈ H.edge_types → di ∈ H.edge_types →
      m_separated (MSepArg.mixedGraph H) x y z bi di = m_separated_core H x y z bi di) := by
  refine ⟨rfl, ?_, ?_⟩
  · intro H h
    have : ¬ (bi ∈ H.edge_types ∧ di ∈ H.edge_types) := by tauto
    simp [m_separated, this]
  · intro H h1 h2
    simp [m_separated, h1, h2]

theorem claim_C8_witness :
    (m_separated (MSepArg.notMixed : MSepArg String) [] [] [] "bidirected" "directed"
        = .error (.runtimeError msepNotMixedMsg)) ∧
    (m_separated (MSepArg.mixedGraph fixtureTwoEmpty) [] [] [] "bidirected" "absent"
        = .error (.runtimeError (msepEdgeTypesMsg fixtureTwoEmpty.edge_types "bidirected" "absent"))) ∧
    (m_separated (MSepArg.mixedGraph fixtureADMG) ["Z"] ["Y"] [] "bidirected" "directed"
        = m_separated_core fixtureADMG ["Z"] ["Y"] [] "bidirected" "directed") :=
  ⟨(claim_C8_precondition_errors [] [] [] "bidirected" "directed").1,
   (claim_C8_precondition_errors [] [] [] "bidirected" "absent").2.1
     fixtureTwoEmpty (by decide),
   (claim_C8_precondition_errors ["Z"] ["Y"] [] "bidirected" "directed").2.2
     fixtureADMG (by decide) (by decide)⟩

/-- C9: `MixedEdgeGraph` construction succeeds exactly when the list of
graphs and the list of edge-type names have equal length and every supplied
object is a recognized networkx `Graph`/`DiGraph`; otherwise it fails with an
error and no partially constructed object (the `Except` carries no graph). -/
theorem claim_C9_init_ok_iff (gs : List (PyGraphObj ν)) (ets : List String) :
    (∃ G, MixedEdgeGraph.init gs ets = .ok G) ↔
      (gs.length = ets.length ∧ ∀ g ∈ gs, g ≠ PyGraphObj.notGraph) := by
  unfold MixedEdgeGraph.init
  constructor
  · rintro ⟨G, hG⟩
    by_cases h1 : gs.length = ets.length
    · rw [if_neg (by simp [h1])] at hG
      by_cases hb : (gs.any fun g => decide (g = PyGraphObj.notGraph)) = true
      · rw [if_pos hb] at hG; simp at hG
      · refine ⟨h1, fun g hg hne => ?_⟩
        exact hb (List.any_eq_true.mpr ⟨g, hg, decide_eq_true hne⟩)
    · rw [if_pos (by simpa using h1)] at hG; simp at hG
  · rintro ⟨h1, h2⟩
    rw [if_neg (by simp [h1])]
    by_cases hb : (gs.any fun g => decide (g = PyGraphObj.notGraph)) = true
    · exfalso
      rcases List.any_eq_true.mp hb with ⟨g, hg, hd⟩
      exact h2 g hg (of_decide_eq_true hd)
    · rw [if_neg hb]
      exact ⟨_, rfl⟩

/-- C3 (counterexample): on a graph with two empty layers, `add_edge` (and
likewise `add_edges_from`) adds the edge's endpoints only to the targeted
layer, so afterwards the directed layer's node set differs from the
bidirected layer's: the claimed invariant is not preserved. -/
theorem claim_C3_counterexample :
    sharedNodes fixtureTwoEmpty ∧
    fixtureTwoEmpty.add_edge "a" "b" "directed" = .ok fixtureTwoEmptyE ∧
    fixtureTwoEmpty.add_edges_from [("a", "b")] "directed" = .ok fixtureTwoEmptyE ∧
    ¬ sharedNodes fixtureTwoEmptyE := by decide

/-- C10 (counterexample): with empty `x` and `y` but layers whose node sets
disagree (still satisfying every checked precondition), `m_separated` raises
`NetworkXError` during pruning instead of returning `True`. -/
theorem claim_C10_counterexample :
    m_separated (MSepArg.mixedGraph fixtureIncons) [] [] [] "bidirected" "directed"
        = .error (.networkXError "The node is not in the graph.") ∧
    m_separated (MSepArg.mixedGraph fixtureIncons) [] [] [] "bidirected" "directed"
        ≠ .ok true := by
  constructor <;> rw [m_separatedF_eq] <;> decide

/-- The pruning phase of `m_separated` on `fixtureCyc` with x = [x1],
y = [y1], z = []: the union of the query sets. -/
def cycUnion : List String := ["x1"] ++ ["y1"] ++ []

def cycD0 : NxGraph String := buildDirected fixtureCyc "directed"

def cycB0 : NxGraph String := buildBidirected fixtureCyc "bidirected"

def cycLeaves : List String := cycD0.nodes.filter (fun n => cycD0.outDeg n == 0)

/-- C2 (counterexample): on `fixtureCyc` the FIFO pruning phase terminates
with the directed 2-cycle c→d→c still present, although neither c nor d is in
x ∪ y ∪ z or an ancestor of it: the final node set is strictly larger than
the claimed x ∪ y ∪ z together with its ancestors. -/
theorem claim_C2_counterexample :
    pruneLoop cycUnion cycD0 cycB0 cycLeaves = .ok (cycD0, cycB0) ∧
    "c" ∈ cycD0.nodes ∧ "c" ∉ cycUnion ∧
    ¬ (∃ u ∈ cycUnion,
        Relation.TransGen (dirStep (fixtureCyc.layerOf "directed").edges) "c" u) := by
  refine ⟨?_, by decide, by decide, ?_⟩
  · rw [← pruneLoopF_eq cycUnion 50]; decide
  · rintro ⟨u, hu, htg⟩
    have hmem : u ∈ ["c", "d"] :=
      transGen_closed _ ["c", "d"] (by decide) (by decide) htg
    have h1 : u = "c" ∨ u = "d" := by simpa using hmem
    have h2 : u = "x1" ∨ u = "y1" := by simpa [cycUnion] using hu
    rcases h1 with rfl | rfl <;> rcases h2 with h2 | h2 <;> exact absurd h2 (by decide)

/-- C1 (counterexample): on `fixtureCyc`, `m_separated` returns `False` for
x = [x1], y = [y1], z = [] — yet no node of x shares a connected component of
the specification's moral graph F with any node of y (c and d are not
ancestral, so the bidirected edges x1↔c↔y1 are not edges of F): the claimed
if-and-only-if fails. -/
theorem claim_C1_counterexample :
    m_separated (MSepArg.mixedGraph fixtureCyc) ["x1"] ["y1"] [] "bidirected" "directed"
        = .ok false ∧
    mSepSpec fixtureCyc ["x1"] ["y1"] [] "bidirected" "directed" := by
  constructor
  · rw [m_separatedF_eq]; decide
  · rintro ⟨a, ha, b, hb, hAa, hAb, hRTG⟩
    have ha' : a = "x1" := by simpa using ha
    have hb' : b = "y1" := by simpa using hb
    subst ha'; subst hb'
    have hD : (fixtureCyc.layerOf "directed").edges = [("c", "d"), ("d", "c")] := rfl
    have hB : (fixtureCyc.layerOf "bidirected").edges = [("x1", "c"), ("c", "y1")] := rfl
    rcases Relation.ReflTransGen.cases_head hRTG with heq | ⟨mid, hstep, _⟩
    · exact absurd heq (by decide)
    · obtain ⟨_, hAmid, hedge⟩ := hstep
      have hmid : mid = "c" := by
        rw [hD, hB] at hedge
        rcases hedge with ⟨h, _⟩ | ⟨h, _⟩ | h | h <;> simp at h
        · exact h
      subst hmid
      obtain ⟨_, hor⟩ := hAmid
      rcases hor with hU | ⟨u, hu, htg⟩
      · exact absurd hU (by decide)
      · have hmem : u ∈ ["c", "d"] :=
          transGen_closed _ ["c", "d"] (by rw [hD]; decide) (by decide) htg
        have h1 : u = "c" ∨ u = "d" := by simpa using hmem
        have h2 : u = "x1" ∨ u = "y1" := by simpa using hu
        rcases h1 with rfl | rfl <;> rcases h2 with h2 | h2 <;> exact absurd h2 (by decide)

theorem removeNodeLoop_all (n : ν) (gs : List (NxGraph ν))
    (h : ∀ g ∈ gs, n ∈ g.nodes) :
    removeNodeLoop n gs = (gs.map (fun g => g.removeNode n), none) := by
  induction gs with
  | nil => rfl
  | cons g gs ih =>
    unfold removeNodeLoop
    rw [if_pos (h g (by simp)), ih (fun g' hg' => h g' (by simp [hg']))]
    rfl

theorem removeNodeLoop_absent (n : ν) (g : NxGraph ν) (gs : List (NxGraph ν))
    (h : n ∉ g.nodes) :
    removeNodeLoop n (g :: gs) =
      (g :: gs, some (.networkXError "The node is not in the graph.")) := by
  unfold removeNodeLoop
  rw [if_neg h]

theorem mem_removeNodesFold (ns : List ν) :
    ∀ (g : NxGraph ν) (v : ν),
      v ∈ (ns.foldl (fun h m => if m ∈ h.nodes then h.removeNode m else h) g).nodes ↔
        v ∈ g.nodes ∧ v ∉ ns := by
  induction ns with
  | nil => intro g v; simp
  | cons m ms ih =>
    intro g v
    rw [List.foldl_cons, ih]
    have hstep : v ∈ (if m ∈ g.nodes then g.removeNode m else g).nodes ↔
        v ∈ g.nodes ∧ v ≠ m := by
      split
      · exact mem_removeNode g m v
      · next hm =>
        constructor
        · intro hv
          exact ⟨hv, fun heq => hm (heq ▸ hv)⟩
        · exact And.left
    rw [hstep]
    constructor
    · rintro ⟨⟨h1, h2⟩, h3⟩
      exact ⟨h1, by simp [h2, h3]⟩
    · rintro ⟨h1, h2⟩
      simp only [List.mem_cons, not_or] at h2
      exact ⟨⟨h1, h2.1⟩, h2.2⟩

theorem sharedNodes_add_node (G : MixedEdgeGraph ν) (hG : sharedNodes G) (n : ν) :
    sharedNodes (G.add_node n) := by
  intro g hg h hh v hv
  simp only [MixedEdgeGraph.add_node, List.mem_map] at hg hh
  obtain ⟨g0, hg0, rfl⟩ := hg
  obtain ⟨h0, hh0, rfl⟩ := hh
  rw [mem_addNode] at hv ⊢
  rcases hv with hv | rfl
  · exact Or.inl (hG g0 hg0 h0 hh0 v hv)
  · exact Or.inr rfl

theorem sharedNodes_remove_node (G : MixedEdgeGraph ν) (hG : sharedNodes G) (n : ν) :
    sharedNodes (G.remove_node n).1 := by
  by_cases hall : ∀ g ∈ G.graphs, n ∈ g.nodes
  · unfold MixedEdgeGraph.remove_node
    rw [removeNodeLoop_all n G.graphs hall]
    intro g hg h hh v hv
    simp only [List.mem_map] at hg hh
    obtain ⟨g0, hg0, rfl⟩ := hg
    obtain ⟨h0, hh0, rfl⟩ := hh
    rw [mem_removeNode] at hv ⊢
    exact ⟨hG g0 hg0 h0 hh0 v hv.1, hv.2⟩
  · push_neg at hall
    obtain ⟨gbad, hgbad, hnbad⟩ := hall
    rcases hGs : G.graphs with _ | ⟨g0, gs⟩
    · rw [hGs] at hgbad; simp at hgbad
    · have h0 : n ∉ g0.nodes := fun hin =>
        hnbad (hG g0 (by rw [hGs]; simp) gbad hgbad n hin)
      unfold MixedEdgeGraph.remove_node
      rw [hGs, removeNodeLoop_absent n g0 gs h0]
      intro g hg h hh
      exact hG g (by rw [hGs]; exact hg) h (by rw [hGs]; exact hh)

theorem sharedNodes_remove_nodes_from (G : MixedEdgeGraph ν) (hG : sharedNodes G)
    (ns : List ν) : sharedNodes (G.remove_nodes_from ns) := by
  intro g hg h hh v hv
  simp only [MixedEdgeGraph.remove_nodes_from, List.mem_map] at hg hh
  obtain ⟨g0, hg0, rfl⟩ := hg
  obtain ⟨h0, hh0, rfl⟩ := hh
  rw [mem_removeNodesFold] at hv ⊢
  exact ⟨hG g0 hg0 h0 hh0 v hv.1, hv.2⟩

omit [DecidableEq ν] in
theorem sharedNodes_clear (G : MixedEdgeGraph ν) : sharedNodes G.clear := by
  intro g hg h hh v hv
  simp only [MixedEdgeGraph.clear, List.mem_map] at hg
  obtain ⟨g0, _, rfl⟩ := hg
  simp [NxGraph.clear] at hv

/-- C3 (amended): the node-level operations `add_node`, `add_nodes_from`,
`remove_node`, `remove_nodes_from` and `clear` do preserve the property that
every layer has the same node set; `add_edge`/`add_edges_from` are excluded,
since they add the edge's endpoints only to the targeted layer (see the
counterexample). -/
theorem claim_C3_amended (G : MixedEdgeGraph ν) (hG : sharedNodes G)
    (n c : ν) (ns : List ν) :
    sharedNodes (G.add_node n) ∧
    sharedNodes (G.add_nodes_from c) ∧
    sharedNodes (G.remove_node n).1 ∧
    sharedNodes (G.remove_nodes_from ns) ∧
    sharedNodes G.clear :=
  ⟨sharedNodes_add_node G hG n, sharedNodes_add_node G hG c,
   sharedNodes_remove_node G hG n, sharedNodes_remove_nodes_from G hG ns,
   sharedNodes_clear G⟩

theorem claim_C3_amended_witness :
    sharedNodes (fixtureADMG.add_node "b") ∧
    sharedNodes (fixtureADMG.add_nodes_from "c") ∧
    sharedNodes (fixtureADMG.remove_node "b").1 ∧
    sharedNodes (fixtureADMG.remove_nodes_from ["X"]) ∧
    sharedNodes fixtureADMG.clear :=
  claim_C3_amended fixtureADMG (by decide) "b" "c" ["X"]

theorem addNode_eq_of_mem (g : NxGraph ν) {n : ν} (h : n ∈ g.nodes) :
    g.addNode n = g := by
  unfold NxGraph.addNode
  rw [if_pos h]

theorem addNode_edges (g : NxGraph ν) (n : ν) : (g.addNode n).edges = g.edges := by
  unfold NxGraph.addNode
  split <;> rfl

theorem addNode_kind (g : NxGraph ν) (n : ν) : (g.addNode n).kind = g.kind := by
  unfold NxGraph.addNode
  split <;> rfl

theorem nodup_addNode (g : NxGraph ν) (h : g.nodes.Nodup) (n : ν) :
    (g.addNode n).nodes.Nodup := by
  unfold NxGraph.addNode
  split
  · exact h
  · next hn => simp [List.nodup_append, h, hn]

theorem mem_foldAddNode (L : List ν) :
    ∀ (g : NxGraph ν) (v : ν),
      v ∈ (L.foldl NxGraph.addNode g).nodes ↔ v ∈ g.nodes ∨ v ∈ L := by
  induction L with
  | nil => intro g v; simp
  | cons a as ih =>
    intro g v
    rw [List.foldl_cons, ih, mem_addNode]
    simp [or_assoc]

theorem foldAddNode_edges (L : List ν) :
    ∀ g : NxGraph ν, (L.foldl NxGraph.addNode g).edges = g.edges := by
  induction L with
  | nil => intro g; rfl
  | cons a as ih => intro g; rw [List.foldl_cons, ih, addNode_edges]

theorem nodup_foldAddNode (L : List ν) :
    ∀ g : NxGraph ν, g.nodes.Nodup → (L.foldl NxGraph.addNode g).nodes.Nodup := by
  induction L with
  | nil => intro g h; exact h
  | cons a as ih => intro g h; exact ih _ (nodup_addNode g h a)

theorem addNode_nodes_congr {g h : NxGraph ν} (hn : g.nodes = h.nodes) (n : ν) :
    (g.addNode n).nodes = (h.addNode n).nodes := by
  unfold NxGraph.addNode
  rw [hn]
  split <;> simp [hn]

theorem foldAddNode_nodes_congr (L : List ν) :
    ∀ {g h : NxGraph ν}, g.nodes = h.nodes →
      (L.foldl NxGraph.addNode g).nodes = (L.foldl NxGraph.addNode h).nodes := by
  induction L with
  | nil => intro g h hn; exact hn
  | cons a as ih => intro g h hn; exact ih (addNode_nodes_congr hn a)

theorem addEdgeDi_nodes_of_mem (g : NxGraph ν) {u v : ν}
    (hu : u ∈ g.nodes) (hv : v ∈ g.nodes) : (g.addEdgeDi u v).nodes = g.nodes := by
  simp only [NxGraph.addEdgeDi]
  rw [addNode_eq_of_mem g hu, addNode_eq_of_mem g hv]
  split <;> rfl

theorem mem_addEdgeDi_nodes (g : NxGraph ν) (u v w : ν) :
    w ∈ (g.addEdgeDi u v).nodes ↔ w ∈ g.nodes ∨ w = u ∨ w = v := by
  unfold NxGraph.addEdgeDi
  have hnodes : ∀ g' : NxGraph ν,
      (if (u, v) ∈ g'.edges then g' else { g' with edges := g'.edges ++ [(u, v)] }).nodes
        = g'.nodes := by
    intro g'; split <;> rfl
  rw [hnodes, mem_addNode, mem_addNode]
  tauto

theorem mem_addEdgeDi_edges (g : NxGraph ν) (u v : ν) (e : ν × ν) :
    e ∈ (g.addEdgeDi u v).edges ↔ e ∈ g.edges ∨ e = (u, v) := by
  have h2 : ((g.addNode u).addNode v).edges = g.edges := by
    rw [addNode_edges, addNode_edges]
  simp only [NxGraph.addEdgeDi]
  split
  · next h =>
    rw [h2] at h ⊢
    constructor
    · exact Or.inl
    · rintro (he | rfl)
      · exact he
      · exact h
  · simp [h2]

theorem addEdgeDi_edges_nodup (g : NxGraph ν) (h : g.edges.Nodup) (u v : ν) :
    (g.addEdgeDi u v).edges.Nodup := by
  have h2 : ((g.addNode u).addNode v).edges = g.edges := by
    rw [addNode_edges, addNode_edges]
  simp only [NxGraph.addEdgeDi]
  split
  · rw [h2]; exact h
  · next hn =>
    rw [h2] at hn
    simp [h2, List.nodup_append, h, hn]

theorem addEdgeDi_wf (g : NxGraph ν)
    (h : ∀ e ∈ g.edges, e.1 ∈ g.nodes ∧ e.2 ∈ g.nodes) (u v : ν) :
    ∀ e ∈ (g.addEdgeDi u v).edges,
      e.1 ∈ (g.addEdgeDi u v).nodes ∧ e.2 ∈ (g.addEdgeDi u v).nodes := by
  intro e he
  rw [mem_addEdgeDi_edges] at he
  rw [mem_addEdgeDi_nodes, mem_addEdgeDi_nodes]
  rcases he with he | rfl
  · exact ⟨Or.inl (h e he).1, Or.inl (h e he).2⟩
  · exact ⟨Or.inr (Or.inl rfl), Or.inr (Or.inr rfl)⟩

theorem foldAddEdgeDi_nodes_of_sub (E : List (ν × ν)) :
    ∀ (g : NxGraph ν), (∀ e ∈ E, e.1 ∈ g.nodes ∧ e.2 ∈ g.nodes) →
      (E.foldl (fun g e => g.addEdgeDi e.1 e.2) g).nodes = g.nodes := by
  induction E with
  | nil => intro g _; rfl
  | cons a as ih =>
    intro g hE
    rw [List.foldl_cons, ih]
    · exact addEdgeDi_nodes_of_mem g (hE a (by simp)).1 (hE a (by simp)).2
    · intro e he
      rw [addEdgeDi_nodes_of_mem g (hE a (by simp)).1 (hE a (by simp)).2]
      exact hE e (by simp [he])

theorem mem_foldAddEdgeDi_edges (E : List (ν × ν)) :
    ∀ (g : NxGraph ν) (e : ν × ν),
      e ∈ (E.foldl (fun g e => g.addEdgeDi e.1 e.2) g).edges ↔ e ∈ g.edges ∨ e ∈ E := by
  induction E with
  | nil => intro g e; simp
  | cons a as ih =>
    intro g e
    rw [List.foldl_cons, ih, mem_addEdgeDi_edges]
    simp [or_assoc]

theorem foldAddEdgeDi_edges_nodup (E : List (ν × ν)) :
    ∀ (g : NxGraph ν), g.edges.Nodup →
      (E.foldl (fun g e => g.addEdgeDi e.1 e.2) g).edges.Nodup := by
  induction E with
  | nil => intro g h; exact h
  | cons a as ih => intro g h; exact ih _ (addEdgeDi_edges_nodup g h a.1 a.2)

theorem foldAddEdgeDi_wf (E : List (ν × ν)) :
    ∀ (g : NxGraph ν), (∀ e ∈ g.edges, e.1 ∈ g.nodes ∧ e.2 ∈ g.nodes) →
      ∀ e ∈ (E.foldl (fun g e => g.addEdgeDi e.1 e.2) g).edges,
        e.1 ∈ (E.foldl (fun g e => g.addEdgeDi e.1 e.2) g).nodes ∧
        e.2 ∈ (E.foldl (fun g e => g.addEdgeDi e.1 e.2) g).nodes := by
  induction E with
  | nil => intro g h; exact h
  | cons a as ih => intro g h; exact ih _ (addEdgeDi_wf g h a.1 a.2)

theorem addEdgeUn_nodes_of_mem (g : NxGraph ν) {u v : ν}
    (hu : u ∈ g.nodes) (hv : v ∈ g.nodes) : (g.addEdgeUn u v).nodes = g.nodes := by
  simp only [NxGraph.addEdgeUn]
  rw [addNode_eq_of_mem g hu, addNode_eq_of_mem g hv]
  split <;> rfl

theorem mem_addEdgeUn_nodes (g : NxGraph ν) (u v w : ν) :
    w ∈ (g.addEdgeUn u v).nodes ↔ w ∈ g.nodes ∨ w = u ∨ w = v := by
  unfold NxGraph.addEdgeUn
  have hnodes : ∀ g' : NxGraph ν,
      (if (u, v) ∈ g'.edges ∨ (v, u) ∈ g'.edges then g'
        else { g' with edges := g'.edges ++ [(u, v)] }).nodes = g'.nodes := by
    intro g'; split <;> rfl
  rw [hnodes, mem_addNode, mem_addNode]
  tauto

theorem mem_addEdgeUn_edges (g : NxGraph ν) (u v : ν) (e : ν × ν) :
    e ∈ (g.addEdgeUn u v).edges → e ∈ g.edges ∨ e = (u, v) := by
  have h2 : ((g.addNode u).addNode v).edges = g.edges := by
    rw [addNode_edges, addNode_edges]
  simp only [NxGraph.addEdgeUn]
  split
  · rw [h2]; exact Or.inl
  · intro he
    simpa [h2] using he

/-- The symmetric adjacency reported by an undirected edge list. -/
def adjUn (E : List (ν × ν)) (u v : ν) : Prop := (u, v) ∈ E ∨ (v, u) ∈ E

theorem adjUn_addEdgeUn (g : NxGraph ν) (a b u v : ν) :
    adjUn (g.addEdgeUn a b).edges u v ↔
      adjUn g.edges u v ∨ (u = a ∧ v = b) ∨ (u = b ∧ v = a) := by
  have h2 : ((g.addNode a).addNode b).edges = g.edges := by
    rw [addNode_edges, addNode_edges]
  simp only [NxGraph.addEdgeUn, adjUn]
  split
  · next h =>
    rw [h2] at h ⊢
    constructor
    · exact Or.inl
    · rintro (huv | ⟨rfl, rfl⟩ | ⟨rfl, rfl⟩)
      · exact huv
      · exact h
      · exact Or.symm h
  · simp only [h2, List.mem_append, List.mem_singleton, Prod.mk.injEq]
    tauto

theorem addEdgeUn_wf (g : NxGraph ν)
    (h : ∀ e ∈ g.edges, e.1 ∈ g.nodes ∧ e.2 ∈ g.nodes) (u v : ν) :
    ∀ e ∈ (g.addEdgeUn u v).edges,
      e.1 ∈ (g.addEdgeUn u v).nodes ∧ e.2 ∈ (g.addEdgeUn u v).nodes := by
  intro e he
  rcases mem_addEdgeUn_edges g u v e he with he' | rfl
  · rw [mem_addEdgeUn_nodes, mem_addEdgeUn_nodes]
    exact ⟨Or.inl (h e he').1, Or.inl (h e he').2⟩
  · rw [mem_addEdgeUn_nodes, mem_addEdgeUn_nodes]
    exact ⟨Or.inr (Or.inl rfl), Or.inr (Or.inr rfl)⟩

theorem foldAddEdgeUn_nodes_of_sub (E : List (ν × ν)) :
    ∀ (g : NxGraph ν), (∀ e ∈ E, e.1 ∈ g.nodes ∧ e.2 ∈ g.nodes) →
      (E.foldl (fun g e => g.addEdgeUn e.1 e.2) g).nodes = g.nodes := by
  induction E with
  | nil => intro g _; rfl
  | cons a as ih =>
    intro g hE
    rw [List.foldl_cons, ih]
    · exact addEdgeUn_nodes_of_mem g (hE a (by simp)).1 (hE a (by simp)).2
    · intro e he
      rw [addEdgeUn_nodes_of_mem g (hE a (by simp)).1 (hE a (by simp)).2]
      exact hE e (by simp [he])

theorem mem_foldAddEdgeUn_nodes (E : List (ν × ν)) :
    ∀ (g : NxGraph ν) (w : ν),
      w ∈ (E.foldl (fun g e => g.addEdgeUn e.1 e.2) g).nodes ↔
        w ∈ g.nodes ∨ ∃ e ∈ E, w = e.1 ∨ w = e.2 := by
  induction E with
  | nil => intro g w; simp
  | cons a as ih =>
    rcases a with ⟨a1, a2⟩
    intro g w
    rw [List.foldl_cons, ih, mem_addEdgeUn_nodes]
    simp only [List.mem_cons, exists_eq_or_imp]
    rw [or_assoc]

theorem mem_foldAddEdgeUn_edges (E : List (ν × ν)) :
    ∀ (g : NxGraph ν) (e : ν × ν),
      e ∈ (E.foldl (fun g e => g.addEdgeUn e.1 e.2) g).edges → e ∈ g.edges ∨ e ∈ E := by
  induction E with
  | nil => intro g e he; exact Or.inl he
  | cons a as ih =>
    intro g e he
    rcases ih _ e he with he' | he'
    · rcases mem_addEdgeUn_edges g a.1 a.2 e he' with he'' | rfl
      · exact Or.inl he''
      · exact Or.inr (by simp)
    · exact Or.inr (by simp [he'])

theorem adjUn_foldAddEdgeUn (E : List (ν × ν)) :
    ∀ (g : NxGraph ν) (u v : ν),
      adjUn (E.foldl (fun g e => g.addEdgeUn e.1 e.2) g).edges u v ↔
        adjUn g.edges u v ∨ adjUn E u v := by
  induction E with
  | nil => intro g u v; simp [adjUn]
  | cons a as ih =>
    rcases a with ⟨a1, a2⟩
    intro g u v
    rw [List.foldl_cons, ih, adjUn_addEdgeUn]
    unfold adjUn
    simp only [List.mem_cons, Prod.mk.injEq]
    tauto

theorem foldAddEdgeUn_wf (E : List (ν × ν)) :
    ∀ (g : NxGraph ν), (∀ e ∈ g.edges, e.1 ∈ g.nodes ∧ e.2 ∈ g.nodes) →
      ∀ e ∈ (E.foldl (fun g e => g.addEdgeUn e.1 e.2) g).edges,
        e.1 ∈ (E.foldl (fun g e => g.addEdgeUn e.1 e.2) g).nodes ∧
        e.2 ∈ (E.foldl (fun g e => g.addEdgeUn e.1 e.2) g).nodes := by
  induction E with
  | nil => intro g h; exact h
  | cons a as ih => intro g h; exact ih _ (addEdgeUn_wf g h a.1 a.2)

theorem mem_removeNode_edges (g : NxGraph ν) (n : ν) (e : ν × ν) :
    e ∈ (g.removeNode n).edges ↔ e ∈ g.edges ∧ e.1 ≠ n ∧ e.2 ≠ n := by
  simp [NxGraph.removeNode, List.mem_filter, and_assoc]

theorem outDeg_eq_zero_iff (g : NxGraph ν) (n : ν) :
    g.outDeg n = 0 ↔ ∀ e ∈ g.edges, e.1 ≠ n := by
  unfold NxGraph.outDeg
  rw [List.length_eq_zero, List.filter_eq_nil_iff]
  simp

theorem length_filter_ne_of_nodup {l : List ν} (h : l.Nodup) {a : ν} (ha : a ∈ l) :
    (l.filter (fun b => decide (b ≠ a))).length = l.length - 1 := by
  induction l with
  | nil => cases ha
  | cons x xs ih =>
    rw [List.nodup_cons] at h
    rcases List.mem_cons.mp ha with rfl | ha'
    · rw [List.filter_cons_of_neg (by simp)]
      rw [List.filter_eq_self.mpr (fun b hb => by
        simp only [decide_eq_true_eq]
        exact fun hbx => h.1 (hbx ▸ hb))]
      simp
    · have hxa : x ≠ a := fun hxa => h.1 (hxa ▸ ha')
      rw [List.filter_cons_of_pos (by simp [hxa])]
      have hlen : 1 ≤ xs.length := List.length_pos.mpr (List.ne_nil_of_mem ha')
      simp only [List.length_cons]
      rw [ih h.2 ha']
      omega

theorem removeNode_nodes_length (g : NxGraph ν) (hno : g.nodes.Nodup) {n : ν}
    (h : n ∈ g.nodes) : (g.removeNode n).nodes.length = g.nodes.length - 1 := by
  unfold NxGraph.removeNode
  exact length_filter_ne_of_nodup hno h

theorem outDeg_removeNode_eq_zero (g : NxGraph ν) {n leaf : ν}
    (h : g.outDeg n = 0) : (g.removeNode leaf).outDeg n = 0 := by
  rw [outDeg_eq_zero_iff] at h ⊢
  intro e he
  exact h e ((mem_removeNode_edges g leaf e).mp he).1

theorem outDeg_one_src_unique (g : NxGraph ν) {p : ν} (hone : g.outDeg p = 1)
    {e1 e2 : ν × ν} (h1 : e1 ∈ g.edges) (h1p : e1.1 = p)
    (h2 : e2 ∈ g.edges) (h2p : e2.1 = p) : e1 = e2 := by
  unfold NxGraph.outDeg at hone
  rcases List.length_eq_one.mp hone with ⟨a, ha⟩
  have m1 : e1 ∈ g.edges.filter (fun e => decide (e.1 = p)) :=
    List.mem_filter.mpr ⟨h1, by simp [h1p]⟩
  have m2 : e2 ∈ g.edges.filter (fun e => decide (e.1 = p)) :=
    List.mem_filter.mpr ⟨h2, by simp [h2p]⟩
  rw [ha, List.mem_singleton] at m1 m2
  rw [m1, m2]

theorem outDeg_removeNode_zero_of_one (g : NxGraph ν) {p leaf : ν}
    (hone : g.outDeg p = 1) (hmem : (p, leaf) ∈ g.edges) :
    (g.removeNode leaf).outDeg p = 0 := by
  rw [outDeg_eq_zero_iff]
  intro e he
  rw [mem_removeNode_edges] at he
  obtain ⟨heg, _, hne2⟩ := he
  intro hep
  have := outDeg_one_src_unique g hone heg hep hmem rfl
  exact hne2 (by rw [this])

theorem eq_singleton_of_nodup_all_eq {α : Type} (l : List α) (hl : l.Nodup) (x : α)
    (hall : ∀ a ∈ l, a = x) (hx : x ∈ l) : l = [x] := by
  cases l with
  | nil => cases hx
  | cons a t =>
    have ha : a = x := hall a (by simp)
    subst ha
    cases t with
    | nil => rfl
    | cons b t2 =>
      have hb : b = a := hall b (by simp)
      subst hb
      simp at hl

theorem outDeg_removeNode_cases (g : NxGraph ν) (hnodup : g.edges.Nodup)
    {n leaf : ν} (hne : n ≠ leaf) (hzero : (g.removeNode leaf).outDeg n = 0) :
    g.outDeg n = 0 ∨ (g.outDeg n = 1 ∧ (n, leaf) ∈ g.edges) := by
  rw [outDeg_eq_zero_iff] at hzero
  by_cases hmem : (n, leaf) ∈ g.edges
  · right
    refine ⟨?_, hmem⟩
    have hall : ∀ e ∈ g.edges.filter (fun e => decide (e.1 = n)), e = (n, leaf) := by
      intro e he
      rw [List.mem_filter, decide_eq_true_eq] at he
      obtain ⟨heg, hp⟩ := he
      by_cases h2 : e.2 = leaf
      · calc e = (e.1, e.2) := rfl
          _ = (n, leaf) := by rw [hp, h2]
      · exfalso
        have hee : e ∈ (g.removeNode leaf).edges :=
          (mem_removeNode_edges g leaf e).mpr ⟨heg, by rw [hp]; exact hne, h2⟩
        exact hzero e hee hp
    have hmemf : (n, leaf) ∈ g.edges.filter (fun e => decide (e.1 = n)) :=
      List.mem_filter.mpr ⟨hmem, by simp⟩
    have hsing := eq_singleton_of_nodup_all_eq _ (hnodup.filter _) _ hall hmemf
    unfold NxGraph.outDeg
    rw [hsing]
    rfl
  · left
    rw [outDeg_eq_zero_iff]
    intro e he hp
    by_cases h2 : e.2 = leaf
    · exact hmem (by rw [show (n, leaf) = e from by
        calc (n, leaf) = (e.1, e.2) := by rw [hp, h2]
          _ = e := rfl]; exact he)
    · have hee : e ∈ (g.removeNode leaf).edges :=
        (mem_removeNode_edges g leaf e).mpr ⟨he, by rw [hp]; exact hne, h2⟩
      exact hzero e hee hp

theorem mem_predecessors (g : NxGraph ν) (n p : ν) :
    p ∈ g.predecessors n ↔ (p, n) ∈ g.edges := by
  unfold NxGraph.predecessors
  rw [List.mem_map]
  constructor
  · rintro ⟨e, he, rfl⟩
    rw [List.mem_filter, decide_eq_true_eq] at he
    have : (e.1, n) = e := by
      calc (e.1, n) = (e.1, e.2) := by rw [he.2]
        _ = e := rfl
    rw [this]
    exact he.1
  · intro h
    exact ⟨(p, n), List.mem_filter.mpr ⟨h, by simp⟩, rfl⟩

theorem predecessors_nodup (g : NxGraph ν) (h : g.edges.Nodup) (n : ν) :
    (g.predecessors n).Nodup := by
  unfold NxGraph.predecessors
  refine List.Nodup.map_on ?_ (h.filter _)
  intro e1 he1 e2 he2 hfst
  rw [List.mem_filter, decide_eq_true_eq] at he1 he2
  calc e1 = (e1.1, e1.2) := rfl
    _ = (e2.1, e2.2) := by rw [hfst, he1.2, he2.2]
    _ = e2 := rfl

/-- One admissible leaf-pruning step: remove a node outside `x ∪ y ∪ z` whose
out-degree in the current directed graph is zero. -/
inductive PruneStep (union : List ν) : NxGraph ν → NxGraph ν → Prop
  | step {g : NxGraph ν} {n : ν} (hmem : n ∈ g.nodes) (hnu : n ∉ union)
      (hdeg : g.outDeg n = 0) : PruneStep union g (g.removeNode n)

/-- Any sequence of admissible pruning steps. -/
def Pruned (union : List ν) : NxGraph ν → NxGraph ν → Prop :=
  Relation.ReflTransGen (PruneStep union)

/-- No admissible pruning step remains: the pruning has reached a fixed
point. -/
def PruneComplete (union : List ν) (g : NxGraph ν) : Prop :=
  ∀ n ∈ g.nodes, n ∉ union → g.outDeg n ≠ 0

/-- The loop invariant of the FIFO pruning phase: both working graphs are the
induced subgraphs of the initial working graphs `D₀`/`B₀` on the current node
set, the two node sets coincide, and the deque holds exactly the
zero-out-degree nodes still awaiting processing (each node enters the deque
at most once). -/
structure PruneInv (union : List ν) (D₀ B₀ : NxGraph ν) (D B : NxGraph ν)
    (Q : List ν) : Prop where
  hDsub : ∀ v ∈ D.nodes, v ∈ D₀.nodes
  hDedges : ∀ e : ν × ν, e ∈ D.edges ↔ e ∈ D₀.edges ∧ e.1 ∈ D.nodes ∧ e.2 ∈ D.nodes
  hBnodes : B.nodes = D.nodes
  hBedges : ∀ e : ν × ν, e ∈ B.edges ↔ e ∈ B₀.edges ∧ e.1 ∈ D.nodes ∧ e.2 ∈ D.nodes
  hnodup : D.nodes.Nodup
  hEnodup : D.edges.Nodup
  hQsub : ∀ n ∈ Q, n ∈ D.nodes
  hQnodup : Q.Nodup
  hQdeg : ∀ n ∈ Q, D.outDeg n = 0
  hQfull : ∀ n ∈ D.nodes, n ∉ union → D.outDeg n = 0 → n ∈ Q

/-- What the FIFO pruning loop produces from an invariant-satisfying state:
it terminates without error in a state that is a complete pruning of the
state it started from, with the invariant restored (empty deque). -/
def PruneOut (union : List ν) (D₀ B₀ D B : NxGraph ν) (Q : List ν) : Prop :=
  ∃ D' B', pruneLoop union D B Q = .ok (D', B') ∧ Pruned union D D' ∧
    PruneComplete union D' ∧ PruneInv union D₀ B₀ D' B' []

theorem prune_base {union : List ν} {D₀ B₀ D B : NxGraph ν}
    (inv : PruneInv union D₀ B₀ D B []) : PruneOut union D₀ B₀ D B [] :=
  ⟨D, B, pruneLoop_nil _ _ _, Relation.ReflTransGen.refl,
   fun n hn hnu h0 => absurd (inv.hQfull n hn hnu h0) (List.not_mem_nil n), inv⟩

theorem inv_skip {union : List ν} {D₀ B₀ D B : NxGraph ν} {leaf : ν}
    {rest : List ν} (inv : PruneInv union D₀ B₀ D B (leaf :: rest))
    (hu : leaf ∈ union) : PruneInv union D₀ B₀ D B rest := by
  refine ⟨inv.hDsub, inv.hDedges, inv.hBnodes, inv.hBedges, inv.hnodup,
    inv.hEnodup, fun n hn => inv.hQsub n (by simp [hn]), inv.hQnodup.of_cons,
    fun n hn => inv.hQdeg n (by simp [hn]), fun n hn hnu h0 => ?_⟩
  rcases List.mem_cons.mp (inv.hQfull n hn hnu h0) with rfl | h
  · exact absurd hu hnu
  · exact h

theorem inv_remove {union : List ν} {D₀ B₀ D B : NxGraph ν} {leaf : ν}
    {rest : List ν} (inv : PruneInv union D₀ B₀ D B (leaf :: rest)) :
    PruneInv union D₀ B₀ (D.removeNode leaf) (B.removeNode leaf)
      (rest ++ (D.predecessors leaf).filter (fun p => D.outDeg p == 1)) := by
  have hD : leaf ∈ D.nodes := inv.hQsub leaf (by simp)
  have hdeg0 : D.outDeg leaf = 0 := inv.hQdeg leaf (by simp)
  have hrest_ne : leaf ∉ rest := (List.nodup_cons.mp inv.hQnodup).1
  have hA_mem : ∀ p : ν, p ∈ (D.predecessors leaf).filter (fun p => D.outDeg p == 1) ↔
      ((p, leaf) ∈ D.edges ∧ D.outDeg p = 1) := by
    intro p
    rw [List.mem_filter, mem_predecessors]
    simp [beq_iff_eq]
  refine ⟨?_, ?_, ?_, ?_, ?_, ?_, ?_, ?_, ?_, ?_⟩
  · intro v hv
    exact inv.hDsub v ((mem_removeNode D leaf v).mp hv).1
  · intro e
    rw [mem_removeNode_edges, inv.hDedges e, mem_removeNode, mem_removeNode]
    tauto
  · show (B.removeNode leaf).nodes = (D.removeNode leaf).nodes
    simp only [NxGraph.removeNode]
    rw [inv.hBnodes]
  · intro e
    rw [mem_removeNode_edges, inv.hBedges e, mem_removeNode, mem_removeNode]
    tauto
  · exact inv.hnodup.filter _
  · exact inv.hEnodup.filter _
  · intro n hn
    rcases List.mem_append.mp hn with hn | hn
    · have h1 : n ∈ D.nodes := inv.hQsub n (by simp [hn])
      have h2 : n ≠ leaf := fun h => hrest_ne (h ▸ hn)
      exact (mem_removeNode D leaf n).mpr ⟨h1, h2⟩
    · rw [hA_mem] at hn
      obtain ⟨hmem, hone⟩ := hn
      have h1 : n ∈ D.nodes := ((inv.hDedges _).mp hmem).2.1
      have h2 : n ≠ leaf := by
        rintro rfl
        rw [hdeg0] at hone
        exact absurd hone (by omega)
      exact (mem_removeNode D leaf n).mpr ⟨h1, h2⟩
  · rw [List.nodup_append]
    refine ⟨(List.nodup_cons.mp inv.hQnodup).2,
      (predecessors_nodup D inv.hEnodup leaf).filter _, ?_⟩
    intro n hn hn'
    rw [hA_mem] at hn'
    have h0 : D.outDeg n = 0 := inv.hQdeg n (by simp [hn])
    rw [h0] at hn'
    exact absurd hn'.2 (by omega)
  · intro n hn
    rcases List.mem_append.mp hn with hn | hn
    · exact outDeg_removeNode_eq_zero D (inv.hQdeg n (by simp [hn]))
    · rw [hA_mem] at hn
      exact outDeg_removeNode_zero_of_one D hn.2 hn.1
  · intro n hn hnu h0
    obtain ⟨h1, h2⟩ := (mem_removeNode D leaf n).mp hn
    rcases outDeg_removeNode_cases D inv.hEnodup h2 h0 with hz | ⟨hone, hmem⟩
    · rcases List.mem_cons.mp (inv.hQfull n h1 hnu hz) with rfl | h
      · exact absurd rfl h2
      · exact List.mem_append.mpr (Or.inl h)
    · exact List.mem_append.mpr (Or.inr ((hA_mem n).mpr ⟨hmem, hone⟩))

theorem pruneLoop_spec (union : List ν) (D₀ B₀ : NxGraph ν) :
    ∀ (M : Nat) (D : NxGraph ν), D.nodes.length ≤ M →
      ∀ (K : Nat) (Q : List ν), Q.length ≤ K → ∀ (B : NxGraph ν),
        PruneInv union D₀ B₀ D B Q → PruneOut union D₀ B₀ D B Q := by
  intro M
  induction M with
  | zero =>
    intro D hM K Q hK B inv
    have hnil : D.nodes = [] := List.length_eq_zero.mp (Nat.le_zero.mp hM)
    have hQ : Q = [] := List.eq_nil_iff_forall_not_mem.mpr fun n hn => by
      have := inv.hQsub n hn
      rw [hnil] at this
      exact absurd this (List.not_mem_nil n)
    subst hQ
    exact prune_base inv
  | succ M ihM =>
    intro D hM K
    induction K with
    | zero =>
      intro Q hK B inv
      have hQ : Q = [] := List.length_eq_zero.mp (Nat.le_zero.mp hK)
      subst hQ
      exact prune_base inv
    | succ K ihK =>
      intro Q hK B inv
      rcases Q with _ | ⟨leaf, rest⟩
      · exact prune_base inv
      · by_cases hu : leaf ∈ union
        · obtain ⟨D', B', hrun, hp, hc, hi⟩ :=
            ihK rest (by simpa using Nat.le_of_succ_le_succ hK) B (inv_skip inv hu)
          exact ⟨D', B', by rw [pruneLoop_cons_skip _ _ _ _ hu]; exact hrun, hp, hc, hi⟩
        · have hD : leaf ∈ D.nodes := inv.hQsub leaf (by simp)
          have hB : leaf ∈ B.nodes := by rw [inv.hBnodes]; exact hD
          have hdeg0 : D.outDeg leaf = 0 := inv.hQdeg leaf (by simp)
          have hlen : (D.removeNode leaf).nodes.length ≤ M := by
            rw [removeNode_nodes_length D inv.hnodup hD]
            have : 1 ≤ D.nodes.length := List.length_pos.mpr (List.ne_nil_of_mem hD)
            omega
          have inv' := inv_remove inv
          obtain ⟨D', B', hrun, hp, hc, hi⟩ :=
            ihM (D.removeNode leaf) hlen
              (rest ++ (D.predecessors leaf).filter (fun p => D.outDeg p == 1)).length
              (rest ++ (D.predecessors leaf).filter (fun p => D.outDeg p == 1))
              le_rfl (B.removeNode leaf) inv'
          refine ⟨D', B', ?_,
            Relation.ReflTransGen.head (PruneStep.step hD hu hdeg0) hp, hc, hi⟩
          rw [pruneLoop_cons_remove _ _ _ _ hu hD hB]
          exact hrun

/-- The cross-layer consistency the specification's invariant would ensure:
every edge endpoint of the directed and bidirected layers is a node of the
graph's node view. -/
def layersConsistent (G : MixedEdgeGraph ν) (bi di : String) : Prop :=
  (∀ e ∈ (G.layerOf di).edges, e.1 ∈ G.nodesView ∧ e.2 ∈ G.nodesView) ∧
  (∀ e ∈ (G.layerOf bi).edges, e.1 ∈ G.nodesView ∧ e.2 ∈ G.nodesView)

instance (G : MixedEdgeGraph ν) (bi di : String) :
    Decidable (layersConsistent G bi di) := by
  unfold layersConsistent; infer_instance

theorem buildDirected_edges_mem (G : MixedEdgeGraph ν) (di : String) (e : ν × ν) :
    e ∈ (buildDirected G di).edges ↔ e ∈ (G.layerOf di).edges := by
  unfold buildDirected
  rw [mem_foldAddEdgeDi_edges, foldAddNode_edges]
  simp

theorem buildDirected_wf (G : MixedEdgeGraph ν) (di : String) :
    ∀ e ∈ (buildDirected G di).edges,
      e.1 ∈ (buildDirected G di).nodes ∧ e.2 ∈ (buildDirected G di).nodes := by
  unfold buildDirected
  apply foldAddEdgeDi_wf
  intro e he
  rw [foldAddNode_edges] at he
  exact absurd he (List.not_mem_nil e)

theorem buildDirected_nodes_eq_build (G : MixedEdgeGraph ν) (di : String)
    (h : ∀ e ∈ (G.layerOf di).edges, e.1 ∈ G.nodesView ∧ e.2 ∈ G.nodesView) :
    (buildDirected G di).nodes =
      (G.nodesView.foldl NxGraph.addNode ⟨GKind.directed, [], []⟩).nodes := by
  unfold buildDirected
  apply foldAddEdgeDi_nodes_of_sub
  intro e he
  rw [mem_foldAddNode, mem_foldAddNode]
  exact ⟨Or.inr (h e he).1, Or.inr (h e he).2⟩

theorem buildDirected_nodes_mem (G : MixedEdgeGraph ν) (di : String)
    (h : ∀ e ∈ (G.layerOf di).edges, e.1 ∈ G.nodesView ∧ e.2 ∈ G.nodesView) (v : ν) :
    v ∈ (buildDirected G di).nodes ↔ v ∈ G.nodesView := by
  rw [buildDirected_nodes_eq_build G di h, mem_foldAddNode]
  simp

theorem buildDirected_nodes_nodup (G : MixedEdgeGraph ν) (di : String)
    (h : ∀ e ∈ (G.layerOf di).edges, e.1 ∈ G.nodesView ∧ e.2 ∈ G.nodesView) :
    (buildDirected G di).nodes.Nodup := by
  rw [buildDirected_nodes_eq_build G di h]
  exact nodup_foldAddNode _ _ (by simp)

theorem buildBidirected_edges_mem (G : MixedEdgeGraph ν) (bi : String) (e : ν × ν) :
    e ∈ (buildBidirected G bi).edges → e ∈ (G.layerOf bi).edges := by
  unfold buildBidirected
  intro he
  rcases mem_foldAddEdgeUn_edges _ _ _ he with he' | he'
  · rw [foldAddNode_edges] at he'
    exact absurd he' (List.not_mem_nil e)
  · exact he'

theorem buildBidirected_adjUn (G : MixedEdgeGraph ν) (bi : String) (u v : ν) :
    adjUn (buildBidirected G bi).edges u v ↔ adjUn (G.layerOf bi).edges u v := by
  unfold buildBidirected
  rw [adjUn_foldAddEdgeUn]
  have hbase : ¬ adjUn ((G.nodesView.foldl NxGraph.addNode
      ⟨GKind.undirected, [], []⟩)).edges u v := by
    unfold adjUn
    rw [foldAddNode_edges]
    simp
  constructor
  · rintro (h | h)
    · exact absurd h hbase
    · exact h
  · exact Or.inr

theorem buildBidirected_wf (G : MixedEdgeGraph ν) (bi : String) :
    ∀ e ∈ (buildBidirected G bi).edges,
      e.1 ∈ (buildBidirected G bi).nodes ∧ e.2 ∈ (buildBidirected G bi).nodes := by
  unfold buildBidirected
  apply foldAddEdgeUn_wf
  intro e he
  rw [foldAddNode_edges] at he
  exact absurd he (List.not_mem_nil e)

theorem buildBidirected_nodes_eq_build (G : MixedEdgeGraph ν) (bi : String)
    (h : ∀ e ∈ (G.layerOf bi).edges, e.1 ∈ G.nodesView ∧ e.2 ∈ G.nodesView) :
    (buildBidirected G bi).nodes =
      (G.nodesView.foldl NxGraph.addNode ⟨GKind.undirected, [], []⟩).nodes := by
  unfold buildBidirected
  apply foldAddEdgeUn_nodes_of_sub
  intro e he
  rw [mem_foldAddNode, mem_foldAddNode]
  exact ⟨Or.inr (h e he).1, Or.inr (h e he).2⟩

theorem build_nodes_eq (G : MixedEdgeGraph ν) (bi di : String)
    (hc : layersConsistent G bi di) :
    (buildBidirected G bi).nodes = (buildDirected G di).nodes := by
  rw [buildBidirected_nodes_eq_build G bi hc.2, buildDirected_nodes_eq_build G di hc.1]
  exact foldAddNode_nodes_congr _ rfl

theorem initialPruneInv (G : MixedEdgeGraph ν) (bi di : String) (union : List ν)
    (hc : layersConsistent G bi di) :
    PruneInv union (buildDirected G di) (buildBidirected G bi) (buildDirected G di)
      (buildBidirected G bi)
      ((buildDirected G di).nodes.filter
        (fun n => (buildDirected G di).outDeg n == 0)) := by
  refine ⟨fun v hv => hv, ?_, build_nodes_eq G bi di hc, ?_,
    buildDirected_nodes_nodup G di hc.1, ?_, ?_, ?_, ?_, ?_⟩
  · intro e
    constructor
    · intro he
      exact ⟨he, (buildDirected_wf G di e he).1, (buildDirected_wf G di e he).2⟩
    · exact fun h => h.1
  · intro e
    constructor
    · intro he
      have hwf := buildBidirected_wf G bi e he
      rw [build_nodes_eq G bi di hc] at hwf
      exact ⟨he, hwf.1, hwf.2⟩
    · exact fun h => h.1
  · unfold buildDirected
    apply foldAddEdgeDi_edges_nodup
    rw [foldAddNode_edges]
    exact List.nodup_nil
  · exact fun n hn => (List.mem_filter.mp hn).1
  · exact (buildDirected_nodes_nodup G di hc.1).filter _
  · intro n hn
    have := (List.mem_filter.mp hn).2
    simpa [beq_iff_eq] using this
  · intro n hn _ h0
    exact List.mem_filter.mpr ⟨hn, by simp [beq_iff_eq, h0]⟩

theorem pruned_sub {union : List ν} {D₀ g : NxGraph ν} (hp : Pruned union D₀ g) :
    ∀ v ∈ g.nodes, v ∈ D₀.nodes := by
  induction hp with
  | refl => exact fun v hv => hv
  | tail _ step ih =>
    cases step with
    | step hmem hnu hdeg =>
      intro v hv
      exact ih v ((mem_removeNode _ _ v).mp hv).1

theorem pruned_edges {union : List ν} {D₀ g : NxGraph ν}
    (hwf : ∀ e ∈ D₀.edges, e.1 ∈ D₀.nodes ∧ e.2 ∈ D₀.nodes)
    (hp : Pruned union D₀ g) :
    ∀ e : ν × ν, e ∈ g.edges ↔ e ∈ D₀.edges ∧ e.1 ∈ g.nodes ∧ e.2 ∈ g.nodes := by
  induction hp with
  | refl =>
    intro e
    exact ⟨fun he => ⟨he, (hwf e he).1, (hwf e he).2⟩, fun h => h.1⟩
  | tail _ step ih =>
    cases step with
    | step hmem hnu hdeg =>
      intro e
      rw [mem_removeNode_edges, ih e, mem_removeNode, mem_removeNode]
      tauto

theorem pruned_keep {union : List ν} {D₀ g : NxGraph ν}
    (hwf : ∀ e ∈ D₀.edges, e.1 ∈ D₀.nodes ∧ e.2 ∈ D₀.nodes)
    (hp : Pruned union D₀ g) :
    ∀ v ∈ D₀.nodes,
      (v ∈ union ∨ ∃ u ∈ union, Relation.TransGen (dirStep D₀.edges) v u) →
        v ∈ g.nodes := by
  induction hp with
  | refl => exact fun v hv _ => hv
  | tail hpre step ih =>
    cases step with
    | step hmem hnu hdeg =>
      intro v hv hkeep
      have hvg : v ∈ _ := ih v hv hkeep
      rw [mem_removeNode]
      refine ⟨hvg, ?_⟩
      rintro rfl
      rcases hkeep with hvu | ⟨u, hu, htg⟩
      · exact hnu hvu
      · rcases Relation.TransGen.head'_iff.mp htg with ⟨m, hstep1, hrest⟩
        have hmkeep : m ∈ union ∨
            ∃ u' ∈ union, Relation.TransGen (dirStep D₀.edges) m u' := by
          rcases Relation.reflTransGen_iff_eq_or_transGen.mp hrest with heq | htg'
          · exact Or.inl (heq ▸ hu)
          · exact Or.inr ⟨u, hu, htg'⟩
        have hmg : m ∈ _ := ih m (hwf _ hstep1).2 hmkeep
        have hedge : (v, m) ∈ _ :=
          (pruned_edges hwf hpre (v, m)).mpr ⟨hstep1, hvg, hmg⟩
        rw [outDeg_eq_zero_iff] at hdeg
        exact hdeg (v, m) hedge rfl

theorem complete_reaches {union : List ν} {D₀ g : NxGraph ν}
    (hwf : ∀ e ∈ D₀.edges, e.1 ∈ D₀.nodes ∧ e.2 ∈ D₀.nodes)
    (rank : ν → Nat) (hrank : ∀ e ∈ D₀.edges, rank e.2 < rank e.1)
    (hp : Pruned union D₀ g) (hc : PruneComplete union g) :
    ∀ v ∈ g.nodes,
      v ∈ union ∨ ∃ u ∈ union, Relation.TransGen (dirStep D₀.edges) v u := by
  suffices H : ∀ N, ∀ v, rank v < N → v ∈ g.nodes →
      v ∈ union ∨ ∃ u ∈ union, Relation.TransGen (dirStep D₀.edges) v u by
    exact fun v hv => H (rank v + 1) v (Nat.lt_succ_self _) hv
  intro N
  induction N with
  | zero => exact fun v hv => absurd hv (Nat.not_lt_zero _)
  | succ N ih =>
    intro v hvr hvg
    by_cases hvu : v ∈ union
    · exact Or.inl hvu
    · have hne := hc v hvg hvu
      have hout : ∃ m, (v, m) ∈ g.edges := by
        by_contra hno
        push_neg at hno
        apply hne
        rw [outDeg_eq_zero_iff]
        intro e he h1
        exact hno e.2 (by rw [show (v, e.2) = e from by rw [← h1]]; exact he)
      obtain ⟨m, hm⟩ := hout
      have hmD := (pruned_edges hwf hp (v, m)).mp hm
      have hrk : rank m < rank v := hrank (v, m) hmD.1
      rcases ih m (by omega) hmD.2.2 with hmu | ⟨u, hu, htg⟩
      · exact Or.inr ⟨m, hmu, Relation.TransGen.single hmD.1⟩
      · exact Or.inr ⟨u, hu, Relation.TransGen.head hmD.1 htg⟩

theorem pruned_complete_nodes {union : List ν} {D₀ g : NxGraph ν}
    (hwf : ∀ e ∈ D₀.edges, e.1 ∈ D₀.nodes ∧ e.2 ∈ D₀.nodes)
    (rank : ν → Nat) (hrank : ∀ e ∈ D₀.edges, rank e.2 < rank e.1)
    (hp : Pruned union D₀ g) (hc : PruneComplete union g) :
    ∀ v, v ∈ g.nodes ↔ v ∈ D₀.nodes ∧
      (v ∈ union ∨ ∃ u ∈ union, Relation.TransGen (dirStep D₀.edges) v u) :=
  fun v =>
    ⟨fun hv => ⟨pruned_sub hp v hv, complete_reaches hwf rank hrank hp hc v hv⟩,
     fun h => pruned_keep hwf hp v h.1 h.2⟩

theorem prunedNodesChar (G : MixedEdgeGraph ν) (bi di : String) (union : List ν)
    (hc : layersConsistent G bi di)
    (rank : ν → Nat) (hrank : ∀ e ∈ (G.layerOf di).edges, rank e.2 < rank e.1)
    (hsub : ∀ v ∈ union, v ∈ G.nodesView) {g : NxGraph ν}
    (hp : Pruned union (buildDirected G di) g) (hcomp : PruneComplete union g) :
    ∀ v, v ∈ g.nodes ↔ v ∈ union ∨
      ∃ u ∈ union, Relation.TransGen (dirStep (G.layerOf di).edges) v u := by
  have hdir : dirStep (buildDirected G di).edges = dirStep (G.layerOf di).edges := by
    funext u v
    exact propext (buildDirected_edges_mem G di (u, v))
  have hrank' : ∀ e ∈ (buildDirected G di).edges, rank e.2 < rank e.1 := by
    intro e he
    exact hrank e ((buildDirected_edges_mem G di e).mp he)
  intro v
  rw [pruned_complete_nodes (buildDirected_wf G di) rank hrank' hp hcomp v, hdir]
  constructor
  · exact fun h => h.2
  · intro h
    refine ⟨?_, h⟩
    rcases h with hu | ⟨u, hu, htg⟩
    · exact (buildDirected_nodes_mem G di hc.1 v).mpr (hsub v hu)
    · rcases Relation.TransGen.head'_iff.mp htg with ⟨m, hstep1, _⟩
      exact (buildDirected_nodes_mem G di hc.1 v).mpr (hc.1 _ hstep1).1

/-- C2 (amended): provided the layers are consistent (edge endpoints lie in
the node view), the query sets are node sets of the graph, and the directed
layer is acyclic (witnessed by a rank function decreasing along its edges),
the FIFO pruning phase of `m_separated` terminates without error, leaves the
same node set in both working graphs, and that node set is exactly
x ∪ y ∪ z together with all its ancestors under the directed layer's edges;
moreover every complete pruning sequence, whatever its processing order,
ends with that same node set. -/
theorem claim_C2_amended (G : MixedEdgeGraph ν) (x y z : List ν) (bi di : String)
    (hc : layersConsistent G bi di)
    (rank : ν → Nat) (hrank : ∀ e ∈ (G.layerOf di).edges, rank e.2 < rank e.1)
    (hsub : ∀ v ∈ x ++ y ++ z, v ∈ G.nodesView) :
    ∃ D' B',
      pruneLoop (x ++ y ++ z) (buildDirected G di) (buildBidirected G bi)
          ((buildDirected G di).nodes.filter
            (fun n => (buildDirected G di).outDeg n == 0)) = .ok (D', B') ∧
      B'.nodes = D'.nodes ∧
      (∀ v, v ∈ D'.nodes ↔ v ∈ x ++ y ++ z ∨
        ∃ u ∈ x ++ y ++ z, Relation.TransGen (dirStep (G.layerOf di).edges) v u) ∧
      (∀ g, Pruned (x ++ y ++ z) (buildDirected G di) g →
        PruneComplete (x ++ y ++ z) g →
        ∀ v, v ∈ g.nodes ↔ v ∈ x ++ y ++ z ∨
          ∃ u ∈ x ++ y ++ z, Relation.TransGen (dirStep (G.layerOf di).edges) v u) := by
  obtain ⟨D', B', hrun, hp, hcomp, hinv⟩ :=
    pruneLoop_spec (x ++ y ++ z) (buildDirected G di) (buildBidirected G bi)
      (buildDirected G di).nodes.length (buildDirected G di) le_rfl
      ((buildDirected G di).nodes.filter
        (fun n => (buildDirected G di).outDeg n == 0)).length
      ((buildDirected G di).nodes.filter
        (fun n => (buildDirected G di).outDeg n == 0)) le_rfl
      (buildBidirected G bi) (initialPruneInv G bi di (x ++ y ++ z) hc)
  refine ⟨D', B', hrun, hinv.hBnodes,
    prunedNodesChar G bi di (x ++ y ++ z) hc rank hrank hsub hp hcomp,
    fun g hg hgc => prunedNodesChar G bi di (x ++ y ++ z) hc rank hrank hsub hg hgc⟩

theorem claim_C2_amended_witness :
    ∃ D' B',
      pruneLoop (["Z"] ++ ["Y"] ++ []) (buildDirected fixtureADMG "directed")
          (buildBidirected fixtureADMG "bidirected")
          ((buildDirected fixtureADMG "directed").nodes.filter
            (fun n => (buildDirected fixtureADMG "directed").outDeg n == 0))
          = .ok (D', B') ∧
      B'.nodes = D'.nodes ∧
      (∀ v, v ∈ D'.nodes ↔ v ∈ ["Z"] ++ ["Y"] ++ [] ∨
        ∃ u ∈ ["Z"] ++ ["Y"] ++ [],
          Relation.TransGen (dirStep (fixtureADMG.layerOf "directed").edges) v u) ∧
      (∀ g, Pruned (["Z"] ++ ["Y"] ++ []) (buildDirected fixtureADMG "directed") g →
        PruneComplete (["Z"] ++ ["Y"] ++ []) g →
        ∀ v, v ∈ g.nodes ↔ v ∈ ["Z"] ++ ["Y"] ++ [] ∨
          ∃ u ∈ ["Z"] ++ ["Y"] ++ [],
            Relation.TransGen (dirStep (fixtureADMG.layerOf "directed").edges) v u) :=
  claim_C2_amended fixtureADMG ["Z"] ["Y"] [] "bidirected" "directed" (by decide)
    (fun v => if v = "Z" then 2 else if v = "X" then 1 else 0) (by decide) (by decide)

/-- C10 (amended): provided the layers are consistent (so that the pruning
phase cannot hit a missing node), `m_separated` on a `MixedEdgeGraph` with
both required layers registered returns `True` whenever `x` or `y` is the
empty set, for every choice of the other query set and of `z`. -/
theorem claim_C10_amended (G : MixedEdgeGraph ν) (x y z : List ν) (bi di : String)
    (hbi : bi ∈ G.edge_types) (hdi : di ∈ G.edge_types)
    (hc : layersConsistent G bi di) (hxy : x = [] ∨ y = []) :
    m_separated (MSepArg.mixedGraph G) x y z bi di = .ok true := by
  obtain ⟨D', B', hrun, _, _, _⟩ :=
    pruneLoop_spec (x ++ y ++ z) (buildDirected G di) (buildBidirected G bi)
      (buildDirected G di).nodes.length (buildDirected G di) le_rfl
      ((buildDirected G di).nodes.filter
        (fun n => (buildDirected G di).outDeg n == 0)).length
      ((buildDirected G di).nodes.filter
        (fun n => (buildDirected G di).outDeg n == 0)) le_rfl
      (buildBidirected G bi) (initialPruneInv G bi di (x ++ y ++ z) hc)
  simp only [m_separated]
  rw [if_pos ⟨hbi, hdi⟩]
  simp only [m_separated_core]
  rw [hrun]
  rcases hxy with rfl | rfl
  · rfl
  · rcases x with _ | ⟨x0, xs⟩ <;> rfl

theorem claim_C10_amended_witness :
    m_separated (MSepArg.mixedGraph fixtureADMG) [] ["Y"] [] "bidirected" "directed"
      = .ok true :=
  claim_C10_amended fixtureADMG [] ["Y"] [] "bidirected" "directed"
    (by decide) (by decide) (by decide) (Or.inl rfl)

/-- The side condition of a `union(*objs)` call: the element is one of the
objects, or shares a class with one of them. -/
def sideR (R : ν → ν → Prop) (objs : List ν) (a : ν) : Prop :=
  a ∈ objs ∨ ∃ o ∈ objs, R a o

theorem unionClasses_nil (P : List (List ν)) : unionClasses P [] = P := by
  simp [unionClasses]

omit [DecidableEq ν] in
theorem samePiece_singletons (L : List ν) (a b : ν) :
    samePiece (singletons L) a b ↔ a = b ∧ a ∈ L := by
  unfold samePiece singletons
  constructor
  · rintro ⟨c, hc, ha, hb⟩
    rw [List.mem_map] at hc
    obtain ⟨v, hv, rfl⟩ := hc
    rw [List.mem_singleton] at ha hb
    exact ⟨ha.trans hb.symm, ha ▸ hv⟩
  · rintro ⟨rfl, ha⟩
    exact ⟨[a], List.mem_map.mpr ⟨a, ha, rfl⟩, by simp, by simp⟩

theorem samePiece_unionClasses (P : List (List ν)) (objs : List ν)
    (hobjs : objs ≠ []) (a b : ν) :
    samePiece (unionClasses P objs) a b ↔
      samePiece P a b ∨ (sideR (samePiece P) objs a ∧ sideR (samePiece P) objs b) := by
  have hmerged : ∀ v : ν,
      v ∈ ((P.filter (fun c => decide (∃ o ∈ objs, o ∈ c))).flatten ++
        objs.filter (fun o => decide (¬ ∃ c ∈ P, o ∈ c))) ↔
        sideR (samePiece P) objs v := by
    intro v
    rw [List.mem_append, List.mem_flatten]
    unfold sideR samePiece
    constructor
    · rintro (⟨c, hcf, hvc⟩ | hvf)
      · rw [List.mem_filter, decide_eq_true_eq] at hcf
        obtain ⟨hcP, o, ho, hoc⟩ := hcf
        exact Or.inr ⟨o, ho, c, hcP, hvc, hoc⟩
      · rw [List.mem_filter] at hvf
        exact Or.inl hvf.1
    · rintro (hvo | ⟨o, ho, c, hcP, hvc, hoc⟩)
      · by_cases hex : ∃ c ∈ P, v ∈ c
        · obtain ⟨c, hcP, hvc⟩ := hex
          refine Or.inl ⟨c, List.mem_filter.mpr ⟨hcP, ?_⟩, hvc⟩
          rw [decide_eq_true_eq]
          exact ⟨v, hvo, hvc⟩
        · refine Or.inr (List.mem_filter.mpr ⟨hvo, ?_⟩)
          rw [decide_eq_true_eq]
          exact hex
      · refine Or.inl ⟨c, List.mem_filter.mpr ⟨hcP, ?_⟩, hvc⟩
        rw [decide_eq_true_eq]
        exact ⟨o, ho, hoc⟩
  simp only [unionClasses]
  rw [if_neg (by simp [List.isEmpty_iff, hobjs])]
  constructor
  · rintro ⟨c, hc, hac, hbc⟩
    rcases List.mem_cons.mp hc with rfl | hcr
    · exact Or.inr ⟨(hmerged a).mp hac, (hmerged b).mp hbc⟩
    · rw [List.mem_filter] at hcr
      exact Or.inl ⟨c, hcr.1, hac, hbc⟩
  · rintro (⟨c, hcP, hac, hbc⟩ | ⟨hsa, hsb⟩)
    · by_cases hhit : ∃ o ∈ objs, o ∈ c
      · obtain ⟨o, ho, hoc⟩ := hhit
        refine ⟨_, List.mem_cons_self _ _, ?_, ?_⟩
        · exact (hmerged a).mpr (Or.inr ⟨o, ho, c, hcP, hac, hoc⟩)
        · exact (hmerged b).mpr (Or.inr ⟨o, ho, c, hcP, hbc, hoc⟩)
      · refine ⟨c, ?_, hac, hbc⟩
        refine List.mem_cons.mpr (Or.inr (List.mem_filter.mpr ⟨hcP, ?_⟩))
        rw [decide_eq_true_eq]
        exact hhit
    · exact ⟨_, List.mem_cons_self _ _, (hmerged a).mpr hsa, (hmerged b).mpr hsb⟩

/-- An equivalence relation supported on the list `L`. -/
structure EqvOn (L : List ν) (R : ν → ν → Prop) : Prop where
  symm : ∀ a b, R a b → R b a
  trans : ∀ a b c, R a b → R b c → R a c
  mem : ∀ a b, R a b → a ∈ L ∧ b ∈ L
  refl : ∀ a ∈ L, R a a

/-- `samePiece P` coincides with the relation `R`. -/
def RelIff (P : List (List ν)) (R : ν → ν → Prop) : Prop :=
  ∀ a b, samePiece P a b ↔ R a b

omit [DecidableEq ν] in
theorem eqvOn_diag (L : List ν) : EqvOn L (fun a b : ν => a = b ∧ a ∈ L) :=
  ⟨fun a b h => ⟨h.1.symm, h.1 ▸ h.2⟩,
   fun a b c h1 h2 => ⟨h1.1.trans h2.1, h1.2⟩,
   fun a b h => ⟨h.2, h.1 ▸ h.2⟩,
   fun a ha => ⟨rfl, ha⟩⟩

theorem relIff_singletons (L : List ν) :
    RelIff (singletons L) (fun a b : ν => a = b ∧ a ∈ L) :=
  samePiece_singletons L

theorem eqvOn_union {L : List ν} {R : ν → ν → Prop} (hE : EqvOn L R)
    {objs : List ν} (hsub : ∀ o ∈ objs, o ∈ L) :
    EqvOn L (fun a b => R a b ∨ (sideR R objs a ∧ sideR R objs b)) := by
  have hsidemem : ∀ a, sideR R objs a → a ∈ L := by
    rintro a (ha | ⟨o, ho, hr⟩)
    · exact hsub a ha
    · exact (hE.mem a o hr).1
  have hsidetrans : ∀ a b, R a b → sideR R objs b → sideR R objs a := by
    rintro a b hab (hb | ⟨o, ho, hr⟩)
    · exact Or.inr ⟨b, hb, hab⟩
    · exact Or.inr ⟨o, ho, hE.trans a b o hab hr⟩
  refine ⟨?_, ?_, ?_, ?_⟩
  · rintro a b (h | ⟨ha, hb⟩)
    · exact Or.inl (hE.symm a b h)
    · exact Or.inr ⟨hb, ha⟩
  · rintro a b c (hab | ⟨ha, hb⟩) (hbc | ⟨hb', hc⟩)
    · exact Or.inl (hE.trans a b c hab hbc)
    · exact Or.inr ⟨hsidetrans a b hab hb', hc⟩
    · exact Or.inr ⟨ha, hsidetrans c b (hE.symm b c hbc) hb⟩
    · exact Or.inr ⟨ha, hc⟩
  · rintro a b (h | ⟨ha, hb⟩)
    · exact hE.mem a b h
    · exact ⟨hsidemem a ha, hsidemem b hb⟩
  · exact fun a ha => Or.inl (hE.refl a ha)

/-- The equivalence generated by a base relation together with the edges of
an undirected edge list. -/
inductive EClose (R : ν → ν → Prop) (E : List (ν × ν)) : ν → ν → Prop
  | base {a b : ν} : R a b → EClose R E a b
  | edge {u v : ν} : (u, v) ∈ E → EClose R E u v
  | symm {a b : ν} : EClose R E a b → EClose R E b a
  | trans {a b c : ν} : EClose R E a b → EClose R E b c → EClose R E a c

theorem eqvOn_eclose {L : List ν} {R : ν → ν → Prop} (hE : EqvOn L R)
    {E : List (ν × ν)} (hEnd : ∀ e ∈ E, e.1 ∈ L ∧ e.2 ∈ L) :
    EqvOn L (EClose R E) := by
  refine ⟨fun a b h => h.symm, fun a b c h1 h2 => h1.trans h2, ?_,
    fun a ha => EClose.base (hE.refl a ha)⟩
  intro a b h
  induction h with
  | base h => exact hE.mem _ _ h
  | edge h => exact hEnd _ h
  | symm _ ih => exact ⟨ih.2, ih.1⟩
  | trans _ _ ih1 ih2 => exact ⟨ih1.1, ih2.2⟩

theorem eclose_nil {L : List ν} {R : ν → ν → Prop} (hE : EqvOn L R) {a b : ν}
    (h : EClose R [] a b) : R a b := by
  induction h with
  | base h => exact h
  | edge h => exact absurd h (List.not_mem_nil _)
  | symm _ ih => exact hE.symm _ _ ih
  | trans _ _ ih1 ih2 => exact hE.trans _ _ _ ih1 ih2

theorem relIff_union {P : List (List ν)} {R : ν → ν → Prop} (h : RelIff P R)
    {objs : List ν} (hobjs : objs ≠ []) :
    RelIff (unionClasses P objs)
      (fun a b => R a b ∨ (sideR R objs a ∧ sideR R objs b)) := by
  intro a b
  rw [samePiece_unionClasses P objs hobjs a b]
  have hside : ∀ v, sideR (samePiece P) objs v ↔ sideR R objs v := by
    intro v
    unfold sideR
    exact or_congr Iff.rfl (exists_congr fun o => and_congr Iff.rfl (h v o))
  rw [h a b, hside a, hside b]

theorem eclose_cons {L : List ν} {R : ν → ν → Prop} (hE : EqvOn L R) {e : ν × ν}
    {E' : List (ν × ν)} (hEnd : ∀ f ∈ e :: E', f.1 ∈ L ∧ f.2 ∈ L) (a b : ν) :
    EClose (fun p q => R p q ∨ (sideR R [e.1, e.2] p ∧ sideR R [e.1, e.2] q)) E' a b ↔
      EClose R (e :: E') a b := by
  have he1L : e.1 ∈ L := (hEnd e (by simp)).1
  have hconn : ∀ w, sideR R [e.1, e.2] w → EClose R (e :: E') w e.1 := by
    have hbase : ∀ v ∈ ([e.1, e.2] : List ν), EClose R (e :: E') v e.1 := by
      intro v hv
      rcases List.mem_cons.mp hv with rfl | hv2
      · exact EClose.base (hE.refl _ he1L)
      · rw [List.mem_singleton] at hv2
        subst hv2
        refine EClose.symm (EClose.edge ?_)
        have hee : ((e.1, e.2) : ν × ν) = e := rfl
        rw [hee]
        exact List.mem_cons_self _ _
    rintro w (hw | ⟨o, ho, hr⟩)
    · exact hbase w hw
    · exact EClose.trans (EClose.base hr) (hbase o ho)
  constructor
  · intro h
    induction h with
    | base h =>
      rcases h with h | ⟨ha, hb⟩
      · exact EClose.base h
      · exact EClose.trans (hconn _ ha) (EClose.symm (hconn _ hb))
    | edge h => exact EClose.edge (List.mem_cons.mpr (Or.inr h))
    | symm _ ih => exact ih.symm
    | trans _ _ ih1 ih2 => exact ih1.trans ih2
  · intro h
    induction h with
    | base h => exact EClose.base (Or.inl h)
    | edge h =>
      next u v =>
        rcases List.mem_cons.mp h with heq | h'
        · have hu : u = e.1 := congrArg Prod.fst heq
          have hv : v = e.2 := congrArg Prod.snd heq
          refine EClose.base (Or.inr ⟨Or.inl ?_, Or.inl ?_⟩)
          · rw [hu]; exact List.mem_cons_self _ _
          · rw [hv]; simp
        · exact EClose.edge h'
    | symm _ ih => exact ih.symm
    | trans _ _ ih1 ih2 => exact ih1.trans ih2

theorem relIff_foldEdges {L : List ν} :
    ∀ (E : List (ν × ν)) (P : List (List ν)) (R : ν → ν → Prop),
      EqvOn L R → RelIff P R → (∀ e ∈ E, e.1 ∈ L ∧ e.2 ∈ L) →
      RelIff (E.foldl (fun P e => unionClasses P [e.1, e.2]) P) (EClose R E) := by
  intro E
  induction E with
  | nil =>
    intro P R hE hP _ a b
    constructor
    · exact fun h => EClose.base ((hP a b).mp h)
    · exact fun h => (hP a b).mpr (eclose_nil hE h)
  | cons e E' ih =>
    intro P R hE hP hEnd
    rw [List.foldl_cons]
    have hsub : ∀ o ∈ ([e.1, e.2] : List ν), o ∈ L := by
      intro o ho
      rcases List.mem_cons.mp ho with rfl | ho2
      · exact (hEnd e (by simp)).1
      · rw [List.mem_singleton] at ho2
        subst ho2
        exact (hEnd e (by simp)).2
    have hobjs : ([e.1, e.2] : List ν) ≠ [] := by simp
    have hnext := ih (unionClasses P [e.1, e.2]) _ (eqvOn_union hE hsub)
      (relIff_union hP hobjs) (fun f hf => hEnd f (by simp [hf]))
    intro a b
    rw [hnext a b]
    exact eclose_cons hE hEnd a b

theorem relIff_foldPieces_aux {L : List ν} {RE : ν → ν → Prop} (hRE : EqvOn L RE) :
    ∀ (Q : List (List ν)) (P : List (List ν)) (R : ν → ν → Prop),
      EqvOn L R → RelIff P R → (∀ a b, R a b → RE a b) →
      (∀ c ∈ Q, ∀ a ∈ c, ∀ b ∈ c, RE a b) →
      ∃ R', RelIff (Q.foldl unionClasses P) R' ∧ EqvOn L R' ∧
        (∀ a b, R' a b → RE a b) ∧ (∀ a b, R a b → R' a b) ∧
        (∀ c ∈ Q, ∀ a ∈ c, ∀ b ∈ c, R' a b) := by
  intro Q
  induction Q with
  | nil =>
    intro P R hE hP hsub _
    exact ⟨R, hP, hE, hsub, fun a b h => h, by simp⟩
  | cons c Q' ih =>
    intro P R hE hP hsubRE hclique
    by_cases hcnil : c = []
    · subst hcnil
      rw [List.foldl_cons, unionClasses_nil]
      obtain ⟨R', h1, h2, h3, h4, h5⟩ :=
        ih P R hE hP hsubRE (fun c' hc' => hclique c' (by simp [hc']))
      refine ⟨R', h1, h2, h3, h4, ?_⟩
      intro c₀ hc₀ a ha b hb
      rcases List.mem_cons.mp hc₀ with rfl | hc₀'
      · exact absurd ha (List.not_mem_nil a)
      · exact h5 c₀ hc₀' a ha b hb
    · obtain ⟨o0, os, rfl⟩ := List.exists_cons_of_ne_nil hcnil
      have hcsub : ∀ o ∈ (o0 :: os), o ∈ L := fun o ho =>
        (hRE.mem o o (hclique _ (by simp) o ho o ho)).1
      have hanchor : ∀ w, sideR R (o0 :: os) w → RE w o0 := by
        rintro w (hw | ⟨o, ho, hr⟩)
        · exact hclique _ (by simp) w hw o0 (by simp)
        · exact hRE.trans _ _ _ (hsubRE _ _ hr)
            (hclique _ (by simp) o ho o0 (by simp))
      have hR1sub : ∀ a b,
          (R a b ∨ (sideR R (o0 :: os) a ∧ sideR R (o0 :: os) b)) → RE a b := by
        rintro a b (h | ⟨ha, hb⟩)
        · exact hsubRE a b h
        · exact hRE.trans _ _ _ (hanchor a ha) (hRE.symm _ _ (hanchor b hb))
      obtain ⟨R', h1, h2, h3, h4, h5⟩ :=
        ih (unionClasses P (o0 :: os)) _ (eqvOn_union hE hcsub)
          (relIff_union hP hcnil) hR1sub
          (fun c' hc' => hclique c' (by simp [hc']))
      refine ⟨R', by rw [List.foldl_cons]; exact h1, h2, h3,
        fun a b h => h4 a b (Or.inl h), ?_⟩
      intro c₀ hc₀ a ha b hb
      rcases List.mem_cons.mp hc₀ with rfl | hc₀'
      · exact h4 a b (Or.inr ⟨Or.inl ha, Or.inl hb⟩)
      · exact h5 c₀ hc₀' a ha b hb

theorem relIff_foldPieces {L : List ν} {RE : ν → ν → Prop} (hRE : EqvOn L RE)
    (PE : List (List ν)) (hPE : RelIff PE RE) :
    RelIff (PE.foldl unionClasses (singletons L)) RE := by
  obtain ⟨R', h1, h2, h3, h4, h5⟩ :=
    relIff_foldPieces_aux hRE PE (singletons L) (fun a b => a = b ∧ a ∈ L)
      (eqvOn_diag L) (relIff_singletons L)
      (fun a b h => by rw [← h.1]; exact hRE.refl a h.2)
      (fun c hc a ha b hb => (hPE a b).mp ⟨c, hc, ha, hb⟩)
  intro a b
  rw [h1 a b]
  constructor
  · exact h3 a b
  · intro h
    obtain ⟨c, hc, hac, hbc⟩ := (hPE a b).mpr h
    exact h5 c hc a hac b hbc

theorem cross_char {CC : ν → ν → Prop}
    (hsym : ∀ a b, CC a b → CC b a) (htr : ∀ a b c, CC a b → CC b c → CC a c)
    {x y : List ν} {x0 y0 : ν} (hx0 : x0 ∈ x) (hy0 : y0 ∈ y) :
    ((fun a b => CC a b ∨ (sideR CC x a ∧ sideR CC x b)) x0 y0 ∨
      (sideR (fun a b => CC a b ∨ (sideR CC x a ∧ sideR CC x b)) y x0 ∧
       sideR (fun a b => CC a b ∨ (sideR CC x a ∧ sideR CC x b)) y y0)) ↔
      ∃ a ∈ x, ∃ b ∈ y, (a = b ∨ CC a b) := by
  constructor
  · rintro (hA | ⟨hBx, _⟩)
    · rcases hA with hCC | ⟨_, hsy0⟩
      · exact ⟨x0, hx0, y0, hy0, Or.inr hCC⟩
      · rcases hsy0 with hy0x | ⟨o, ho, hr⟩
        · exact ⟨y0, hy0x, y0, hy0, Or.inl rfl⟩
        · exact ⟨o, ho, y0, hy0, Or.inr (hsym _ _ hr)⟩
    · rcases hBx with hx0y | ⟨o, ho, hro⟩
      · exact ⟨x0, hx0, x0, hx0y, Or.inl rfl⟩
      · rcases hro with hCC | ⟨_, hso⟩
        · exact ⟨x0, hx0, o, ho, Or.inr hCC⟩
        · rcases hso with hox | ⟨o', ho', hr'⟩
          · exact ⟨o, hox, o, ho, Or.inl rfl⟩
          · exact ⟨o', ho', o, ho, Or.inr (hsym _ _ hr')⟩
  · rintro ⟨a, ha, b, hb, hab⟩
    refine Or.inr ⟨Or.inr ⟨b, hb, ?_⟩, Or.inl hy0⟩
    rcases hab with rfl | hCC
    · exact Or.inr ⟨Or.inl hx0, Or.inl ha⟩
    · exact Or.inr ⟨Or.inl hx0, Or.inr ⟨a, ha, hsym _ _ hCC⟩⟩

theorem transGen_symm {r : ν → ν → Prop} (hs : ∀ a b, r a b → r b a) {a b : ν}
    (h : Relation.TransGen r a b) : Relation.TransGen r b a := by
  induction h with
  | single h => exact Relation.TransGen.single (hs _ _ h)
  | tail _ h2 ih => exact Relation.TransGen.head (hs _ _ h2) ih

theorem transGen_congr {r s : ν → ν → Prop} (h : ∀ a b, r a b ↔ s a b) {a b : ν} :
    Relation.TransGen r a b ↔ Relation.TransGen s a b :=
  ⟨Relation.TransGen.mono (fun a b => (h a b).mp),
   Relation.TransGen.mono (fun a b => (h a b).mpr)⟩

theorem eclose_diag_iff (L : List ν) (E : List (ν × ν)) (a b : ν) :
    EClose (fun p q => p = q ∧ p ∈ L) E a b ↔
      (a = b ∧ a ∈ L) ∨ Relation.TransGen (fun u v => adjUn E u v) a b := by
  have hadjs : ∀ u v : ν, adjUn E u v → adjUn E v u := fun u v h => Or.symm h
  constructor
  · intro h
    induction h with
    | base h => exact Or.inl h
    | edge h => exact Or.inr (Relation.TransGen.single (Or.inl h))
    | symm _ ih =>
      rcases ih with ⟨heq, hm⟩ | htg
      · exact Or.inl ⟨heq.symm, heq ▸ hm⟩
      · exact Or.inr (transGen_symm hadjs htg)
    | trans _ _ ih1 ih2 =>
      rcases ih1 with ⟨heq1, hm1⟩ | htg1 <;> rcases ih2 with ⟨heq2, hm2⟩ | htg2
      · exact Or.inl ⟨heq1.trans heq2, hm1⟩
      · refine Or.inr ?_
        rw [heq1]
        exact htg2
      · refine Or.inr ?_
        rw [← heq2]
        exact htg1
      · exact Or.inr (htg1.trans htg2)
  · rintro (⟨rfl, hm⟩ | htg)
    · exact EClose.base ⟨rfl, hm⟩
    · induction htg with
      | single h =>
        rcases h with h | h
        · exact EClose.edge h
        · exact EClose.symm (EClose.edge h)
      | tail _ h2 ih =>
        rcases h2 with h | h
        · exact ih.trans (EClose.edge h)
        · exact ih.trans (EClose.symm (EClose.edge h))

/-- The surviving directed edges after deleting the out-edges of `z`
(m_separation.py lines 93-95). -/
def zFilteredEdges (D : NxGraph ν) (z : List ν) : List (ν × ν) :=
  D.edges.filter (fun e => decide (e.1 ∉ z))

/-- `G_final` built from an edge list (m_separation.py lines 98-101). -/
def buildFinal (E : List (ν × ν)) : NxGraph ν :=
  E.foldl (fun g e => g.addEdgeUn e.1 e.2) ⟨GKind.undirected, [], []⟩

/-- The union-find partition at the end of `m_separated` (lines 105-109):
components of `G_final`, then all of `x` merged, then all of `y` merged. -/
def finalPartition (gF : NxGraph ν) (x y : List ν) : List (List ν) :=
  unionClasses
    (unionClasses ((connectedComponents gF).foldl unionClasses (singletons gF.nodes)) x) y

theorem m_separated_core_eq (G : MixedEdgeGraph ν) (x y z : List ν) (bi di : String) :
    m_separated_core G x y z bi di =
      match pruneLoop (x ++ y ++ z) (buildDirected G di) (buildBidirected G bi)
          ((buildDirected G di).nodes.filter
            (fun n => (buildDirected G di).outDeg n == 0)) with
      | .error e => .error e
      | .ok (D, B) =>
        match x, y with
        | x0 :: _, y0 :: _ =>
          if samePiece (finalPartition (buildFinal (zFilteredEdges D z ++ B.edges)) x y)
              x0 y0
          then .ok false else .ok true
        | _, _ => .ok true := by
  unfold m_separated_core finalPartition buildFinal zFilteredEdges connectedComponents
  rfl

theorem samePiece_finalPartition (gF : NxGraph ν)
    (hwf : ∀ e ∈ gF.edges, e.1 ∈ gF.nodes ∧ e.2 ∈ gF.nodes)
    {x y : List ν} {x0 y0 : ν} (hx0 : x0 ∈ x) (hy0 : y0 ∈ y) :
    samePiece (finalPartition gF x y) x0 y0 ↔
      ∃ a ∈ x, ∃ b ∈ y,
        (a = b ∨ EClose (fun p q => p = q ∧ p ∈ gF.nodes) gF.edges a b) := by
  have hDiag := eqvOn_diag (ν := ν) gF.nodes
  have hCC : EqvOn gF.nodes (EClose (fun p q => p = q ∧ p ∈ gF.nodes) gF.edges) :=
    eqvOn_eclose hDiag hwf
  have hPE : RelIff (connectedComponents gF)
      (EClose (fun p q => p = q ∧ p ∈ gF.nodes) gF.edges) := by
    unfold connectedComponents
    exact relIff_foldEdges gF.edges (singletons gF.nodes) _ hDiag
      (relIff_singletons _) hwf
  have hds1 := relIff_foldPieces hCC _ hPE
  have hds2 := relIff_union hds1 (List.ne_nil_of_mem hx0)
  have hds3 := relIff_union hds2 (List.ne_nil_of_mem hy0)
  unfold finalPartition
  rw [hds3 x0 y0]
  exact cross_char hCC.symm hCC.trans hx0 hy0

theorem coreChar (G : MixedEdgeGraph ν) (x y z : List ν) (bi di : String)
    (hc : layersConsistent G bi di)
    (rank : ν → Nat) (hrank : ∀ e ∈ (G.layerOf di).edges, rank e.2 < rank e.1)
    (hsubU : ∀ v ∈ x ++ y ++ z, v ∈ G.nodesView)
    {D' B' : NxGraph ν}
    (hp : Pruned (x ++ y ++ z) (buildDirected G di) D')
    (hcomp : PruneComplete (x ++ y ++ z) D')
    (hDedges : ∀ e : ν × ν, e ∈ D'.edges ↔
      e ∈ (buildDirected G di).edges ∧ e.1 ∈ D'.nodes ∧ e.2 ∈ D'.nodes)
    (hBedges : ∀ e : ν × ν, e ∈ B'.edges ↔
      e ∈ (buildBidirected G bi).edges ∧ e.1 ∈ D'.nodes ∧ e.2 ∈ D'.nodes)
    {x0 y0 : ν} (hx0 : x0 ∈ x) (hy0 : y0 ∈ y) :
    samePiece (finalPartition (buildFinal (zFilteredEdges D' z ++ B'.edges)) x y) x0 y0 ↔
      ¬ mSepSpec G x y z bi di := by
  have hSchar := prunedNodesChar G bi di (x ++ y ++ z) hc rank hrank hsubU hp hcomp
  have hinAS : ∀ v, inAncestralSet (G.layerOf di).edges G.nodesView (x ++ y ++ z) v ↔
      v ∈ D'.nodes := by
    intro v
    rw [hSchar v]
    unfold inAncestralSet
    constructor
    · exact fun h => h.2
    · intro h
      refine ⟨?_, h⟩
      rcases h with hu | ⟨u, hu, htg⟩
      · exact hsubU v hu
      · rcases Relation.TransGen.head'_iff.mp htg with ⟨m, h1, _⟩
        exact (hc.1 _ h1).1
  have hEFmem : ∀ e : ν × ν, e ∈ zFilteredEdges D' z ++ B'.edges ↔
      ((e ∈ (G.layerOf di).edges ∧ e.1 ∈ D'.nodes ∧ e.2 ∈ D'.nodes ∧ e.1 ∉ z) ∨
       (e ∈ (buildBidirected G bi).edges ∧ e.1 ∈ D'.nodes ∧ e.2 ∈ D'.nodes)) := by
    intro e
    rw [List.mem_append]
    unfold zFilteredEdges
    rw [List.mem_filter, hDedges e, hBedges e, buildDirected_edges_mem]
    simp only [decide_eq_true_eq]
    tauto
  have hbiF : ∀ p q : ν, (p, q) ∈ (buildBidirected G bi).edges →
      (p, q) ∈ (G.layerOf bi).edges := fun p q h => buildBidirected_edges_mem G bi (p, q) h
  have hadjIff : ∀ u v, adjUn (zFilteredEdges D' z ++ B'.edges) u v ↔
      moralAdj (G.layerOf di).edges (G.layerOf bi).edges G.nodesView (x ++ y ++ z) z
        u v := by
    intro u v
    have hbi2 := buildBidirected_adjUn G bi u v
    unfold adjUn at hbi2
    unfold moralAdj
    rw [hinAS u, hinAS v]
    unfold adjUn
    rw [hEFmem (u, v), hEFmem (v, u)]
    constructor
    · rintro ((⟨hd, h1, h2, hz⟩ | ⟨hb, h1, h2⟩) | (⟨hd, h1, h2, hz⟩ | ⟨hb, h1, h2⟩))
      · exact ⟨h1, h2, Or.inl ⟨hd, hz⟩⟩
      · exact ⟨h1, h2, Or.inr (Or.inr (Or.inl (hbiF u v hb)))⟩
      · exact ⟨h2, h1, Or.inr (Or.inl ⟨hd, hz⟩)⟩
      · exact ⟨h2, h1, Or.inr (Or.inr (Or.inr (hbiF v u hb)))⟩
    · rintro ⟨h1, h2, (⟨hd, hz⟩ | ⟨hd, hz⟩ | hbl | hbl)⟩
      · exact Or.inl (Or.inl ⟨hd, h1, h2, hz⟩)
      · exact Or.inr (Or.inl ⟨hd, h2, h1, hz⟩)
      · rcases hbi2.mpr (Or.inl hbl) with hb | hb
        · exact Or.inl (Or.inr ⟨hb, h1, h2⟩)
        · exact Or.inr (Or.inr ⟨hb, h2, h1⟩)
      · rcases hbi2.mpr (Or.inr hbl) with hb | hb
        · exact Or.inl (Or.inr ⟨hb, h1, h2⟩)
        · exact Or.inr (Or.inr ⟨hb, h2, h1⟩)
  set gF := buildFinal (zFilteredEdges D' z ++ B'.edges) with hgF
  have hgFwf : ∀ e ∈ gF.edges, e.1 ∈ gF.nodes ∧ e.2 ∈ gF.nodes := by
    rw [hgF]
    unfold buildFinal
    apply foldAddEdgeUn_wf
    intro e he
    exact absurd he (List.not_mem_nil e)
  have hgFadj : ∀ u v, adjUn gF.edges u v ↔
      adjUn (zFilteredEdges D' z ++ B'.edges) u v := by
    intro u v
    rw [hgF]
    unfold buildFinal
    rw [adjUn_foldAddEdgeUn]
    have hbase : ¬ adjUn (⟨GKind.undirected, [], []⟩ : NxGraph ν).edges u v := by
      unfold adjUn
      simp
    constructor
    · rintro (h | h)
      · exact absurd h hbase
      · exact h
    · exact Or.inr
  have hCCiff : ∀ a b, EClose (fun p q => p = q ∧ p ∈ gF.nodes) gF.edges a b ↔
      ((a = b ∧ a ∈ gF.nodes) ∨
        Relation.TransGen
          (moralAdj (G.layerOf di).edges (G.layerOf bi).edges G.nodesView
            (x ++ y ++ z) z) a b) := by
    intro a b
    rw [eclose_diag_iff]
    rw [transGen_congr (fun u v => (hgFadj u v).trans (hadjIff u v))]
  rw [samePiece_finalPartition gF hgFwf hx0 hy0]
  unfold mSepSpec
  rw [not_not]
  constructor
  · rintro ⟨a, ha, b, hb, hab⟩
    have hAa : inAncestralSet (G.layerOf di).edges G.nodesView (x ++ y ++ z) a :=
      (hinAS a).mpr ((hSchar a).mpr (Or.inl (by simp [ha])))
    have hAb : inAncestralSet (G.layerOf di).edges G.nodesView (x ++ y ++ z) b :=
      (hinAS b).mpr ((hSchar b).mpr (Or.inl (by simp [hb])))
    refine ⟨a, ha, b, hb, hAa, hAb, ?_⟩
    rcases hab with rfl | hcc
    · exact Relation.ReflTransGen.refl
    · rcases (hCCiff a b).mp hcc with ⟨rfl, _⟩ | htg
      · exact Relation.ReflTransGen.refl
      · exact htg.to_reflTransGen
  · rintro ⟨a, ha, b, hb, hAa, hAb, hrtg⟩
    refine ⟨a, ha, b, hb, ?_⟩
    rcases Relation.reflTransGen_iff_eq_or_transGen.mp hrtg with heq | htg
    · exact Or.inl heq.symm
    · exact Or.inr ((hCCiff a b).mpr (Or.inr htg))

/-- C1 (amended): for a `MixedEdgeGraph` whose edge-type names include the
requested bidirected and directed layer names, whose layers are consistent
(every layer edge's endpoints lie in the node view), whose directed layer is
acyclic (it admits a rank function decreasing along directed edges), and for
non-empty node sets `x`, `y` and a conditioning set `z` all drawn from the
graph's nodes, `m_separated` returns `.ok true` iff no node of `x` lies in
the same connected component of the specification's moral graph `F` as any
node of `y`, and `.ok false` iff some pair is so connected. -/
theorem claim_C1_amended (G : MixedEdgeGraph ν) (x y z : List ν) (bi di : String)
    (hbi : bi ∈ G.edge_types) (hdi : di ∈ G.edge_types)
    (hc : layersConsistent G bi di)
    (rank : ν → Nat) (hrank : ∀ e ∈ (G.layerOf di).edges, rank e.2 < rank e.1)
    (hx : x ≠ []) (hy : y ≠ [])
    (hsubU : ∀ v ∈ x ++ y ++ z, v ∈ G.nodesView) :
    (m_separated (MSepArg.mixedGraph G) x y z bi di = .ok true ↔
       mSepSpec G x y z bi di) ∧
    (m_separated (MSepArg.mixedGraph G) x y z bi di = .ok false ↔
       ¬ mSepSpec G x y z bi di) := by
  have hm : m_separated (MSepArg.mixedGraph G) x y z bi di =
      m_separated_core G x y z bi di := by
    unfold m_separated
    exact if_pos (And.intro hbi hdi)
  obtain ⟨D', B', hrun, hp, hcomp, hinv'⟩ :=
    pruneLoop_spec (x ++ y ++ z) (buildDirected G di) (buildBidirected G bi)
      (buildDirected G di).nodes.length (buildDirected G di) (le_refl _)
      (((buildDirected G di).nodes.filter
        (fun n => (buildDirected G di).outDeg n == 0)).length)
      ((buildDirected G di).nodes.filter
        (fun n => (buildDirected G di).outDeg n == 0)) (le_refl _)
      (buildBidirected G bi) (initialPruneInv G bi di (x ++ y ++ z) hc)
  rcases List.exists_cons_of_ne_nil hx with ⟨x0, xs, hxeq⟩
  rcases List.exists_cons_of_ne_nil hy with ⟨y0, ys, hyeq⟩
  subst hxeq
  subst hyeq
  have hx0 : x0 ∈ x0 :: xs := List.mem_cons_self x0 xs
  have hy0 : y0 ∈ y0 :: ys := List.mem_cons_self y0 ys
  have hchar := coreChar G (x0 :: xs) (y0 :: ys) z bi di hc rank hrank hsubU hp hcomp
    hinv'.hDedges hinv'.hBedges hx0 hy0
  have hresult : m_separated (MSepArg.mixedGraph G) (x0 :: xs) (y0 :: ys) z bi di =
      (if samePiece (finalPartition (buildFinal (zFilteredEdges D' z ++ B'.edges))
          (x0 :: xs) (y0 :: ys)) x0 y0
       then (.ok false : Except PyErr Bool) else .ok true) := by
    rw [hm, m_separated_core_eq, hrun]
  rw [hresult]
  by_cases hsp : samePiece (finalPartition (buildFinal (zFilteredEdges D' z ++ B'.edges))
      (x0 :: xs) (y0 :: ys)) x0 y0
  · rw [if_pos hsp]
    have hns : ¬ mSepSpec G (x0 :: xs) (y0 :: ys) z bi di := hchar.mp hsp
    refine ⟨⟨fun h => absurd h (by simp), fun h => absurd h hns⟩,
      ⟨fun _ => hns, fun _ => rfl⟩⟩
  · rw [if_neg hsp]
    have hms : mSepSpec G (x0 :: xs) (y0 :: ys) z bi di :=
      not_not.mp (fun h => hsp (hchar.mpr h))
    refine ⟨⟨fun _ => hms, fun _ => rfl⟩,
      ⟨fun h => absurd h (by simp), fun h => absurd hms h⟩⟩

theorem claim_C1_amended_witness :
    (m_separated (MSepArg.mixedGraph fixtureADMG) ["X"] ["Y"] ["Z"]
        "bidirected" "directed" = .ok true ↔
       mSepSpec fixtureADMG ["X"] ["Y"] ["Z"] "bidirected" "directed") ∧
    (m_separated (MSepArg.mixedGraph fixtureADMG) ["X"] ["Y"] ["Z"]
        "bidirected" "directed" = .ok false ↔
       ¬ mSepSpec fixtureADMG ["X"] ["Y"] ["Z"] "bidirected" "directed") :=
  claim_C1_amended fixtureADMG ["X"] ["Y"] ["Z"] "bidirected" "directed"
    (by decide) (by decide) (by decide)
    (fun v => if v = "Z" then 2 else if v = "X" then 1 else 0)
    (by decide) (by decide) (by decide) (by decide)
